/-
A formal model of the umo compiler's middle end, transcribed from the
repository sources (cctx.rs, sir.rs, sir_validation.rs, sir_compile.rs,
sir_eval.rs, ast_typecheck.rs with ntype.rs, and ast_lowering.rs), together
with theorems settling the specification's claims about it.

Modelling conventions:
- Rust `usize`/`i32` are modelled as `Nat`/`Int`; the spec (§9) leaves
  integer overflow behaviour unspecified, so arithmetic is unbounded.
- `BitSet<usize>` is modelled as `Finset ℕ`; `BitSet::iter` enumerates in
  ascending order, modelled by an ascending enumeration of the set.
- Rust panics (`unwrap` on `None`, out-of-range indexing, `assert!`,
  `unreachable!`, `todo!`) are modelled either by an `Option`/error result
  when a claim depends on the panic, or by a default value (`List.getD`,
  `Option.getD`) at places that are unreachable on the validated inputs the
  theorems quantify over; each such place is marked by a comment.
- The unbounded `while updated` loop of the liveness pass is modelled with
  explicit fuel; the termination theorems relate the fuelled iteration to
  the unbounded loop via the sweep function itself.
-/
import Mathlib

namespace Umo

/-! ## bit_set::BitSet — canonical-list model of bit sets

A `BitSet<usize>` is a bit vector: a canonical representation of a finite
set of naturals, with equality as set equality. It is modelled as the
strictly ascending list of its members; every operation below preserves
that canonical form, list equality on canonical lists is exactly set
equality, and `BitSet::iter` (ascending enumeration) is the list itself. -/

/-- The model of `bit_set::BitSet<usize>`. -/
abbrev BitSet := List ℕ

/-- `BitSet::insert`: ordered insertion, keeping the canonical form. -/
def BitSet.insert (a : ℕ) : BitSet → BitSet
  | [] => [a]
  | b :: t =>
    if a < b then a :: b :: t
    else if a = b then b :: t
    else b :: BitSet.insert a t

/-- `BitSet::remove`. -/
def BitSet.remove (a : ℕ) (s : BitSet) : BitSet :=
  s.filter (fun b => decide (b ≠ a))

/-- `BitSet::union_with` (in-place union): every member of `t` inserted
into `s`. -/
def BitSet.union_with (s t : BitSet) : BitSet :=
  t.foldr BitSet.insert s

/-- `BitSet::difference_with` (in-place difference). -/
def BitSet.difference_with (s t : BitSet) : BitSet :=
  s.filter (fun a => decide (a ∉ t))

/-- The set `{0, …, n-1}` (already canonical). -/
def BitSet.range (n : ℕ) : BitSet := List.range n

/-- The canonical-form invariant: strictly ascending (hence duplicate
free). All operations above preserve it, and the empty set and `range`
satisfy it. -/
def BitSet.Canonical (s : BitSet) : Prop := List.Sorted (· < ·) s

/-! ## cctx.rs — compiler context: the fresh-id generator -/

/-- `Id` from cctx.rs: `pub struct Id { pub number: usize }`. -/
structure Id where
  number : ℕ
deriving DecidableEq, Repr

/-- `Id::dummy()`: the `Default` value, number 0. -/
def Id.dummy : Id := ⟨0⟩

/-- `Id::is_dummy`. -/
def Id.is_dummy (i : Id) : Bool := i.number == 0

/-- `IdGen` from cctx.rs. Its `AtomicUsize` counter is modelled as a plain
counter threaded through `fresh`; atomic `fetch_add` serialises the calls on
one generator, so the value sequence of a single generator is exactly the
sequence modelled here. -/
structure IdGen where
  next_id : ℕ
deriving DecidableEq, Repr

/-- `IdGen::new()`: the counter starts at 1 (0 is the dummy id). -/
def IdGen.new : IdGen := ⟨1⟩

/-- `IdGen::fresh`: `fetch_add(1)` returns the old value and increments. -/
def IdGen.fresh (g : IdGen) : Id × IdGen := (⟨g.next_id⟩, ⟨g.next_id + 1⟩)

/-- Generator state after `k` calls to `fresh()` on a newly constructed
generator. -/
def gen_after : ℕ → IdGen
  | 0 => IdGen.new
  | k + 1 => ((gen_after k).fresh).2

/-- The id returned by the `k`-th (0-indexed) `fresh()` call on a newly
constructed generator. -/
def nth_fresh (k : ℕ) : Id := ((gen_after k).fresh).1

/-- A `fresh()` call in the process is identified by a pair
(index of the independently constructed generator, index of the call on that
generator). Every `IdGen::new()` starts its counter at the same value 1, so
the id issued depends only on the call index on its own generator. -/
def call_result (p : ℕ × ℕ) : Id := nth_fresh p.2

/-! ## sir.rs — the Sequential Intermediate Representation -/

namespace Sir

/-- `Literal` from sir.rs. `String(Arc<String>)` is modelled as `String`
(the `Arc` is sharing, not semantics); `Integer(i32)` as `Int`. -/
inductive Literal where
  | Unit : Literal
  | Integer (i : Int) : Literal
  | Bool (b : Bool) : Literal
  | String (s : String) : Literal
deriving DecidableEq, Repr

/-- `BuiltinKind` from sir.rs. -/
inductive BuiltinKind where
  | Add | Lt | Puts | Puti
deriving DecidableEq, Repr

/-- `InstKind` from sir.rs. -/
inductive InstKind where
  | Jump (target : ℕ)
  | Branch (cond : ℕ) (branch_then : ℕ) (branch_else : ℕ)
  | Return (rhs : ℕ)
  | Copy (lhs : ℕ) (rhs : ℕ)
  | Drop (rhs : ℕ)
  | Literal (lhs : ℕ) (value : Literal)
  | Closure (lhs : ℕ) (function_id : ℕ)
  | Builtin (lhs : ℕ) (builtin : BuiltinKind)
  | PushArg (value_ref : ℕ)
  | Call (lhs : ℕ) (callee : ℕ)
deriving DecidableEq, Repr

/-- `InstKind::is_tail`. -/
def InstKind.is_tail : InstKind → Bool
  | .Jump _ | .Branch _ _ _ | .Return _ => true
  | .Copy _ _ | .Drop _ | .Literal _ _ | .PushArg _ | .Closure _ _
  | .Builtin _ _ | .Call _ _ => false

/-- `Inst` from sir.rs: a kind plus the liveness annotation filled in by the
compilation pass. -/
structure Inst where
  kind : InstKind
  live_out : Option BitSet
deriving DecidableEq, Repr

/-- `Inst::new`. -/
def Inst.new (k : InstKind) : Inst := ⟨k, none⟩

/-- `Inst::with_live_out`. -/
def Inst.with_live_out (i : Inst) (lo : BitSet) : Inst := ⟨i.kind, some lo⟩

/-- `BasicBlock` from sir.rs. -/
structure BasicBlock where
  insts : List Inst
  live_in : Option BitSet
deriving DecidableEq, Repr

instance : Inhabited BasicBlock := ⟨⟨[], none⟩⟩

/-- `BasicBlock::new`. -/
def BasicBlock.new (insts : List Inst) : BasicBlock := ⟨insts, none⟩

/-- `Function` from sir.rs: `num_args ≤ num_vars` is an invariant checked by
validation, not by construction. -/
structure Function where
  num_args : ℕ
  num_vars : ℕ
  body : List BasicBlock
deriving DecidableEq, Repr

instance : Inhabited Function := ⟨⟨0, 0, []⟩⟩

/-- `ProgramUnit` from sir.rs. -/
structure ProgramUnit where
  functions : List Function
deriving DecidableEq, Repr

end Sir

/-! ## sir_eval.rs — the SIR interpreter's value domain and builtins -/

namespace SirEval

/-- `Value` from sir_eval.rs: runtime values are only strings and integers. -/
inductive Value where
  | String (s : String)
  | Integer (i : Int)
deriving DecidableEq, Repr

/-- `impl From<Literal> for Value` from sir_eval.rs: `Unit` becomes integer
0, `Bool` its 0/1 coding. -/
def Value.ofLiteral : Sir.Literal → Value
  | .Unit => .Integer 0
  | .String s => .String s
  | .Integer i => .Integer i
  | .Bool b => .Integer (if b then 1 else 0)

/-- Per-invocation interpreter state from sir_eval.rs: the variable slots
and the pending-argument stack. -/
structure State where
  vars : List (Option Value)
  args : List Value
deriving DecidableEq, Repr

/-- The `InstKind::Literal` arm of `eval1_bb`:
`state.vars[*lhs] = Some(Value::from(value.clone()))`. Out-of-range `lhs`
panics in the source; `List.set` leaves the state unchanged there. -/
def eval_literal_inst (st : State) (lhs : ℕ) (v : Sir.Literal) : State :=
  { st with vars := st.vars.set lhs (some (Value.ofLiteral v)) }

/-- Rust `i32::to_string`: decimal representation, `-` sign for negatives;
`Int.repr`/`toString` on `Int` produces the same notation. -/
def int_to_string (i : Int) : String := toString i

/-- Two's-complement wrap of a mathematical integer into the `i32` range
`[-2^31, 2^31)`: the value the source's `i + j` on `i32` produces in the
release profile. (The debug profile panics on overflow — at exactly the
inputs where this wrap differs from the mathematical sum, so under neither
profile does an overflowing `Add` return the mathematical sum.) -/
def wrap_i32 (n : Int) : Int := (n + 2147483648) % 4294967296 - 2147483648

/-- `eval_builtin` from sir_eval.rs. The host call `ctx.puts(s)` is a side
effect; it is modelled by returning the list of strings passed to
`ctx.puts`, in order. `assert_eq!` and `panic!("Expected …")` on arity or
type mismatch are modelled as `none`. `Value.Integer` carries the
mathematical value of the source's `i32`, and the `i32` addition `i + j` of
the `Add` arm is `wrap_i32 (i + j)`. -/
def eval_builtin (f : Sir.BuiltinKind) (args : List Value) :
    Option (Value × List String) :=
  match f with
  | .Add =>
    match args with
    | [Value.Integer i, Value.Integer j] =>
        some (Value.Integer (wrap_i32 (i + j)), [])
    | _ => none
  | .Lt =>
    match args with
    | [Value.Integer i, Value.Integer j] =>
        some (Value.Integer (if i < j then 1 else 0), [])
    | _ => none
  | .Puts =>
    match args with
    | [Value.String s] => some (Value.Integer 0, [s])
    | _ => none
  | .Puti =>
    match args with
    | [Value.Integer i] => some (Value.Integer 0, [int_to_string i])
    | _ => none

end SirEval

instance {ε α : Type} [DecidableEq ε] [DecidableEq α] :
    DecidableEq (Except ε α) := fun a b =>
  match a, b with
  | .ok x, .ok y =>
    if h : x = y then .isTrue (congrArg Except.ok h)
    else .isFalse (fun hh => h (Except.ok.inj hh))
  | .error x, .error y =>
    if h : x = y then .isTrue (congrArg Except.error h)
    else .isFalse (fun hh => h (Except.error.inj hh))
  | .ok _, .error _ => .isFalse (fun hh => Except.noConfusion hh)
  | .error _, .ok _ => .isFalse (fun hh => Except.noConfusion hh)

/-! ## sir_validation.rs — structural validation of a `ProgramUnit` -/

namespace Sir

/-- `SirPosition` from sir_validation.rs. -/
structure SirPosition where
  function_id : ℕ
  block_id : Option ℕ
  inst_id : Option ℕ
deriving DecidableEq, Repr

/-- `SirValidationError` from sir_validation.rs. -/
inductive SirValidationError where
  | ExcessNumArgs (pos : SirPosition)
  | ExpectedTailInstruction (pos : SirPosition)
  | UnexpectedTailInstruction (pos : SirPosition)
  | InvalidVariableId (pos : SirPosition)
  | InvalidTargetBlock (pos : SirPosition)
  | InvalidFunctionId (pos : SirPosition)
deriving DecidableEq, Repr

/-- `Inst::validate_inst` from sir_validation.rs: every referenced variable
id must be `< num_vars`, block ids `< body.len()`, function ids
`< functions.len()`. -/
def Inst.validate_inst (inst : Inst) (program_unit : ProgramUnit)
    (function : Function) (pos : SirPosition) :
    Except SirValidationError Unit :=
  match inst.kind with
  | .Jump target =>
    if function.body.length ≤ target then
      .error (.InvalidTargetBlock pos)
    else .ok ()
  | .Branch cond branch_then branch_else =>
    if function.num_vars ≤ cond then
      .error (.InvalidVariableId pos)
    else if function.body.length ≤ branch_then ∨
        function.body.length ≤ branch_else then
      .error (.InvalidTargetBlock pos)
    else .ok ()
  | .Return rhs =>
    if function.num_vars ≤ rhs then .error (.InvalidVariableId pos)
    else .ok ()
  | .Copy lhs rhs =>
    if function.num_vars ≤ lhs ∨ function.num_vars ≤ rhs then
      .error (.InvalidVariableId pos)
    else .ok ()
  | .Drop rhs =>
    if function.num_vars ≤ rhs then .error (.InvalidVariableId pos)
    else .ok ()
  | .Literal lhs _ =>
    if function.num_vars ≤ lhs then .error (.InvalidVariableId pos)
    else .ok ()
  | .Closure lhs function_id =>
    if function.num_vars ≤ lhs then .error (.InvalidVariableId pos)
    else if program_unit.functions.length ≤ function_id then
      .error (.InvalidFunctionId pos)
    else .ok ()
  | .Builtin lhs _ =>
    if function.num_vars ≤ lhs then .error (.InvalidVariableId pos)
    else .ok ()
  | .PushArg value_ref =>
    if function.num_vars ≤ value_ref then .error (.InvalidVariableId pos)
    else .ok ()
  | .Call lhs callee =>
    if function.num_vars ≤ lhs ∨ function.num_vars ≤ callee then
      .error (.InvalidVariableId pos)
    else .ok ()

/-- The loop body of `BasicBlock::validate_insts`: `total` is the block's
instruction count, `inst_id` the index of the head of `rest`. The last
instruction must be a tail, no earlier one may be. -/
def BasicBlock.validate_insts_from (program_unit : ProgramUnit)
    (function : Function) (pos : SirPosition) (total : ℕ) :
    ℕ → List Inst → Except SirValidationError Unit
  | _, [] => .ok ()
  | inst_id, inst :: rest =>
    let is_last := inst_id == total - 1
    if is_last && !inst.kind.is_tail then
      .error (.ExpectedTailInstruction pos)
    else if !is_last && inst.kind.is_tail then
      .error (.UnexpectedTailInstruction pos)
    else do
      inst.validate_inst program_unit function { pos with inst_id := some inst_id }
      BasicBlock.validate_insts_from program_unit function pos total
        (inst_id + 1) rest

/-- `BasicBlock::validate_insts` from sir_validation.rs. A block with zero
instructions makes the loop run zero times, so it is accepted. -/
def BasicBlock.validate_insts (bb : BasicBlock) (program_unit : ProgramUnit)
    (function : Function) (pos : SirPosition) :
    Except SirValidationError Unit :=
  BasicBlock.validate_insts_from program_unit function pos
    bb.insts.length 0 bb.insts

/-- Block iteration of `Function::validate_insts`. -/
def Function.validate_blocks_from (program_unit : ProgramUnit)
    (function : Function) (pos : SirPosition) :
    ℕ → List BasicBlock → Except SirValidationError Unit
  | _, [] => .ok ()
  | block_id, block :: rest => do
    block.validate_insts program_unit function
      { pos with block_id := some block_id }
    Function.validate_blocks_from program_unit function pos (block_id + 1) rest

/-- `Function::validate_insts` from sir_validation.rs. -/
def Function.validate_insts (function : Function)
    (program_unit : ProgramUnit) (pos : SirPosition) :
    Except SirValidationError Unit := do
  if function.num_vars < function.num_args then
    throw (.ExcessNumArgs pos)
  Function.validate_blocks_from program_unit function pos 0 function.body

/-- Function iteration of `ProgramUnit::validate_insts`. -/
def ProgramUnit.validate_functions_from (program_unit : ProgramUnit) :
    ℕ → List Function → Except SirValidationError Unit
  | _, [] => .ok ()
  | function_id, f :: rest => do
    f.validate_insts program_unit
      ⟨function_id, none, none⟩
    ProgramUnit.validate_functions_from program_unit (function_id + 1) rest

/-- `ProgramUnit::validate_insts` from sir_validation.rs. -/
def ProgramUnit.validate_insts (program_unit : ProgramUnit) :
    Except SirValidationError Unit :=
  ProgramUnit.validate_functions_from program_unit 0 program_unit.functions

end Sir

/-! ## sir_compile.rs — liveness analysis and copy/drop insertion -/

namespace SirCompile

open Sir

/-- `update_alive` from sir_compile.rs: the backward transfer function. Note
the `Closure` arm: the source removes `lhs` and then inserts `function_id`
into the live set. -/
def update_alive (inst : Inst) (alive : BitSet) : BitSet :=
  match inst.kind with
  | .Jump _ => alive
  | .Branch cond _ _ => BitSet.insert cond alive
  | .Return rhs => BitSet.insert rhs alive
  | .Copy lhs rhs => BitSet.insert rhs (BitSet.remove lhs alive)
  | .Drop rhs => BitSet.insert rhs alive
  | .Literal lhs _ => BitSet.remove lhs alive
  | .Closure lhs function_id =>
    BitSet.insert function_id (BitSet.remove lhs alive)
  | .Builtin lhs _ => BitSet.remove lhs alive
  | .PushArg value_ref => BitSet.insert value_ref alive
  | .Call lhs callee => BitSet.insert callee (BitSet.remove lhs alive)

/-- `inst_live_in` from sir_compile.rs: `live_out.clone().unwrap()` (panic
on a missing annotation modelled by `∅`, unreachable after liveness) pushed
through the transfer function. -/
def inst_live_in (inst : Inst) : BitSet :=
  update_alive inst (inst.live_out.getD [])

/-- `block_live_out_to_be` from sir_compile.rs: the tentative live-out of a
block, from the `live_in` of the terminator's successors
(`unwrap_or_default` treats a missing `live_in` as empty). An empty block or
a non-tail last instruction panics in the source (`unwrap` / `assert!` /
`unreachable!`); both are modelled by `∅` and are unreachable on validated
input. -/
def block_live_out_to_be (function : Function) (bb : BasicBlock) : BitSet :=
  match bb.insts.getLast? with
  | some last =>
    match last.kind with
    | .Jump target => ((function.body.getD target default).live_in).getD []
    | .Branch _ branch_then branch_else =>
      let live_out := ((function.body.getD branch_then default).live_in).getD []
      match (function.body.getD branch_else default).live_in with
      | some live_in_else => live_out.union_with live_in_else
      | none => live_out
    | .Return _ => []
    | _ => []
  | none => []

/-- `block_live_out` from sir_compile.rs:
`bb.insts.last().unwrap().live_out.as_ref().unwrap()` (both panics modelled
by `∅`, unreachable after liveness on validated input). -/
def block_live_out (bb : BasicBlock) : BitSet :=
  match bb.insts.getLast? with
  | some last => last.live_out.getD []
  | none => []

/-- The backward instruction walk inside `liveness_bb`, on the reversed
instruction list. A stored `live_out` equal to the incoming `alive` makes
the source `return` from `liveness_bb` at once (result `none`); otherwise
the instruction's `live_out` is overwritten and `alive` is pushed through
the transfer function, and `some alive` at the end is the block's new
tentative `live_in`. -/
def liveness_loop : List Inst → BitSet → List Inst × Option BitSet
  | [], alive => ([], some alive)
  | inst :: rest, alive =>
    if inst.live_out = some alive then (inst :: rest, none)
    else
      let inst' : Inst := ⟨inst.kind, some alive⟩
      let p := liveness_loop rest (update_alive inst' alive)
      (inst' :: p.1, p.2)

/-- Replace block `bb_id` of a function's body. -/
def set_block (function : Function) (bb_id : ℕ) (bb : BasicBlock) : Function :=
  { function with body := function.body.set bb_id bb }

/-- `liveness_bb` from sir_compile.rs: recompute the block's annotations
backwards from its tentative live-out; an early `return` keeps the remaining
annotations, otherwise `live_in` is rewritten and `updated` set when it
changed. -/
def liveness_bb (function : Function) (bb_id : ℕ) (updated : Bool) :
    Function × Bool :=
  let bb := function.body.getD bb_id default
  let alive := block_live_out_to_be function bb
  let p := liveness_loop bb.insts.reverse alive
  let insts' := p.1.reverse
  match p.2 with
  | none => (set_block function bb_id ⟨insts', bb.live_in⟩, updated)
  | some alive' =>
    if bb.live_in = some alive' then
      (set_block function bb_id ⟨insts', bb.live_in⟩, updated)
    else
      (set_block function bb_id ⟨insts', some alive'⟩, true)

/-- One full sweep of the `for bb_id in 0..function.body.len()` loop of
`liveness`, starting with `updated = false`. -/
def liveness_step (function : Function) : Function × Bool :=
  (List.range function.body.length).foldl
    (fun p bb_id => liveness_bb p.1 bb_id p.2) (function, false)

/-- The `while updated` loop of `liveness`, with explicit fuel: stops as the
source does when a sweep reports no change, or when the fuel runs out. -/
def liveness_iter : ℕ → Function → Function
  | 0, function => function
  | n + 1, function =>
    let p := liveness_step function
    if p.2 then liveness_iter n p.1 else p.1

/-- `n` sweeps applied unconditionally: the orbit of the `while` loop. -/
def step_iter : ℕ → Function → Function
  | 0, function => function
  | n + 1, function => step_iter n (liveness_step function).1

/-- The set of variable ids `update_alive` can insert for one instruction
(the `uses` of the transfer function as implemented — for `Closure` this is
the function id). -/
def uses_of (k : InstKind) : BitSet :=
  match k with
  | .Jump _ => []
  | .Branch cond _ _ => [cond]
  | .Return rhs => [rhs]
  | .Copy _ rhs => [rhs]
  | .Drop rhs => [rhs]
  | .Literal _ _ => []
  | .Closure _ function_id => [function_id]
  | .Builtin _ _ => []
  | .PushArg value_ref => [value_ref]
  | .Call _ callee => [callee]

/-- All ids the transfer functions of a list of instruction kinds can ever
insert. -/
def uses_list (ks : List InstKind) : BitSet :=
  ks.foldr (fun k acc => (uses_of k).union_with acc) []

/-- The instruction kinds of each block of a function. -/
def kinds_of (function : Function) : List (List InstKind) :=
  function.body.map (fun bb => bb.insts.map Inst.kind)

/-- The finite universe in which all live sets computed by `liveness` from
an unannotated function live. -/
def live_univ (function : Function) : BitSet :=
  (kinds_of function).foldr (fun ks acc => (uses_list ks).union_with acc) []

/-- Fuel sufficient for the `while updated` loop on the pass's inputs: each
flagged sweep strictly grows the total `live_in` measure, which is bounded
by `body.length * (|live_univ| + 1)`. -/
def liveness_fuel (function : Function) : ℕ :=
  function.body.length * ((live_univ function).length + 1) + 1

/-- `liveness` from sir_compile.rs (the unbounded loop, run with fuel that
the termination theorem shows suffices on unannotated input). -/
def liveness (function : Function) : Function :=
  liveness_iter (liveness_fuel function) function

/-- `moved_rhs_of` from sir_compile.rs: the operand position an instruction
consumes (moves out of its slot), if any. -/
def moved_rhs_of (inst : Inst) : Option ℕ :=
  match inst.kind with
  | .Jump _ => none
  | .Branch cond _ _ => some cond
  | .Return rhs => some rhs
  | .Copy _ _ => none
  | .Drop rhs => some rhs
  | .Literal _ _ => none
  | .Closure _ _ => none
  | .Builtin _ _ => none
  | .PushArg value_ref => some value_ref
  | .Call _ callee => some callee

/-- `replace_moved_rhs` from sir_compile.rs. The kinds without a moved
operand hit `unreachable!` in the source; the model leaves them unchanged
(the caller only invokes this when `moved_rhs_of` is `some`). -/
def replace_moved_rhs (inst : Inst) (t : ℕ) : Inst :=
  ⟨match inst.kind with
    | .Branch _ branch_then branch_else => .Branch t branch_then branch_else
    | .Return _ => .Return t
    | .Drop _ => .Drop t
    | .PushArg _ => .PushArg t
    | .Call lhs _ => .Call lhs t
    | k => k,
   inst.live_out⟩

/-- `lhs_of` from sir_compile.rs: the variable an instruction defines. -/
def lhs_of (inst : Inst) : Option ℕ :=
  match inst.kind with
  | .Jump _ => none
  | .Branch _ _ _ => none
  | .Return _ => none
  | .Copy lhs _ => some lhs
  | .Drop _ => none
  | .Literal lhs _ => some lhs
  | .Closure lhs _ => some lhs
  | .Builtin lhs _ => some lhs
  | .PushArg _ => none
  | .Call lhs _ => some lhs

/-- The carried-over sets of `insert_copy`: arguments into block 0 (an empty
body would make `carried_over[0]` panic; the model simply has no entry),
then each terminator's `live_out` united into its successors. `Return`
carries nothing; a non-tail or missing last instruction panics in the source
(`assert!`/`unwrap`, unreachable on validated input) and is modelled as a
no-op. -/
def carried_over (function : Function) : List BitSet :=
  let init : List BitSet :=
    (List.range function.body.length).map
      (fun i => if i = 0 then BitSet.range function.num_args else [])
  function.body.foldl
    (fun co bb =>
      match bb.insts.getLast? with
      | some last =>
        match last.kind with
        | .Jump target =>
          co.set target ((co.getD target []).union_with (block_live_out bb))
        | .Branch _ branch_then branch_else =>
          let co' := co.set branch_then
            ((co.getD branch_then []).union_with (block_live_out bb))
          co'.set branch_else
            ((co'.getD branch_else []).union_with (block_live_out bb))
        | _ => co
      | none => co)
    init

/-- The per-instruction step of the rewrite loop in `insert_copy_bb`: insert
a `Copy` into a fresh slot before an instruction whose moved operand is
still live after it, and a `Drop` after an instruction whose defined
variable is dead on arrival. State: (next fresh variable, instructions
emitted so far). Missing `live_out` annotations panic in the source
(`unwrap`) and are modelled by `∅`, unreachable after liveness. -/
def insert_copy_step (st : ℕ × List Inst) (inst : Inst) : ℕ × List Inst :=
  let q : Inst × ℕ × List Inst :=
    match moved_rhs_of inst with
    | some moved_rhs =>
      if moved_rhs ∈ inst.live_out.getD [] then
        let new_rhs := st.1
        let alive := BitSet.insert new_rhs (inst_live_in inst)
        (replace_moved_rhs inst new_rhs, st.1 + 1,
          st.2 ++ [(⟨.Copy new_rhs moved_rhs, some alive⟩ : Inst)])
      else (inst, st.1, st.2)
    | none => (inst, st.1, st.2)
  match lhs_of q.1 with
  | some lhs =>
    if lhs ∈ q.1.live_out.getD [] then (q.2.1, q.2.2 ++ [q.1])
    else
      let drop_live_out := q.1.live_out.getD []
      (q.2.1, q.2.2 ++
        [⟨q.1.kind, some (BitSet.insert lhs drop_live_out)⟩,
         ⟨.Drop lhs, some drop_live_out⟩])
  | none => (q.2.1, q.2.2 ++ [q.1])

/-- `insert_copy_bb` from sir_compile.rs: first drop the carried-over
variables the block never uses (`BitSet::iter` enumerates ascending), then
rewrite the original instructions. Returns the new fresh-variable counter
and the rewritten block. The `live_in.as_ref().unwrap()` panic on an
unannotated block is modelled by `∅`. -/
def insert_copy_bb (num_vars : ℕ) (bb : BasicBlock) (co : BitSet) :
    ℕ × BasicBlock :=
  let unused_carried_over := co.difference_with (bb.live_in.getD [])
  let start :=
    unused_carried_over.foldl
      (fun (st : BitSet × List Inst) var =>
        let co' := BitSet.remove var st.1
        (co', st.2 ++ [⟨.Drop var, some co'⟩]))
      (co, [])
  let p := bb.insts.foldl insert_copy_step (num_vars, start.2)
  (p.1, ⟨p.2, bb.live_in⟩)

/-- `insert_copy` from sir_compile.rs: rewrite every block with its
carried-over set, threading the fresh-variable counter. -/
def insert_copy (function : Function) : Function :=
  let p := (function.body.zip (carried_over function)).foldl
    (fun (st : ℕ × List BasicBlock) bc =>
      let q := insert_copy_bb st.1 bc.1 bc.2
      (q.1, st.2 ++ [q.2]))
    (function.num_vars, [])
  { function with num_vars := p.1, body := p.2 }

/-- `compile_function` from sir_compile.rs. -/
def compile_function (function : Function) : Function :=
  insert_copy (liveness function)

/-- `compile` from sir_compile.rs. The guard `cfg!(debug_assert)` around the
input validation is a misspelt cfg flag and evaluates to false, so the
validation call never runs; the pass itself is a pure map over the
functions. -/
def compile (program_unit : ProgramUnit) : ProgramUnit :=
  ⟨program_unit.functions.map compile_function⟩

end SirCompile

/-! ## ntype.rs — types, the type-variable context and unification -/

namespace Ntype

/-- `Type` from ntype.rs (named `Ty` here because `Type` is a Lean
universe). -/
inductive Ty where
  | MetaVar (var_id : ℕ)
  | Unit
  | String
  | Integer
  | Bool
  | Function (args : List Ty) (ret : Ty)

/-- `TyCtx` from ntype.rs: the dense array of optional solutions indexed by
meta-variable id. -/
structure TyCtx where
  vars : List (Option Ty)

/-- `Type::fresh`: appends an unsolved slot and returns its meta-variable. -/
def Ty.fresh (ctx : TyCtx) : Ty × TyCtx :=
  (.MetaVar ctx.vars.length, ⟨ctx.vars ++ [none]⟩)

/-- Failure modes of the checker: `uf` models `Err(UnificationFailure)`,
`panicked` models a Rust panic (`unwrap` of a missing entry, a failed
`debug_assert!`, or — in this model only — fuel exhaustion standing for a
diverging resolution chain). -/
inductive TcFail where
  | uf
  | panicked
deriving DecidableEq, Repr

/-- `resolve2` from ntype.rs: chase meta-variable indirections. The source
loops forever on a cyclic context; the fuel (always called with more fuel
than there are context slots) models that. -/
def resolve2 : ℕ → Ty → List (Option Ty) → Ty
  | 0, ty, _ => ty
  | fuel + 1, ty, vars =>
    match ty with
    | .MetaVar var_id =>
      match vars.getD var_id none with
      | some next_ty => resolve2 fuel next_ty vars
      | none => ty
    | _ => ty

mutual

/-- Structural size of a type, used only to compute recursion fuel. -/
def ty_size : Ty → ℕ
  | .MetaVar _ | .Unit | .String | .Integer | .Bool => 1
  | .Function args ret => 1 + ty_size ret + ty_size_list args

/-- Structural size of a list of types. -/
def ty_size_list : List Ty → ℕ
  | [] => 0
  | t :: rest => ty_size t + ty_size_list rest

end

/-- Total size of the solved entries of a context slice. -/
def ctx_size (vars : List (Option Ty)) : ℕ :=
  (vars.map (fun o => (o.map ty_size).getD 0)).sum

/-- `has_fv` from ntype.rs: the occurs check, with fuel for the recursion
through resolved context entries (the source recurses unboundedly; on the
acyclic contexts unification maintains the fuel below is generous). -/
def has_fv : ℕ → Ty → ℕ → List (Option Ty) → Bool
  | 0, _, _, _ => false
  | fuel + 1, ty, var_id, vars =>
    match resolve2 (vars.length + 1) ty vars with
    | .MetaVar id => id == var_id
    | .Unit | .String | .Integer | .Bool => false
    | .Function args ret =>
      args.any (fun t => has_fv fuel t var_id vars) || has_fv fuel ret var_id vars

/-- Fuel for one occurs-check / unification call. -/
def tc_fuel (t : Ty) (vars : List (Option Ty)) : ℕ :=
  ty_size t + ctx_size vars + vars.length + 1

/-- `unify_impl` from ntype.rs, state-passing over the context slice. The
`OptionCell::set(..).unwrap()` cannot fail because the resolved side is an
unsolved meta-variable; out-of-range ids (impossible for ids minted by
`Ty.fresh`) make `List.set` a no-op where the source panics. Fuel exhaustion
(modelling a diverging chase, unreachable on the acyclic contexts
unification maintains) is reported as a panic. -/
def unify_impl : ℕ → Ty → Ty → List (Option Ty) →
    Except TcFail (List (Option Ty))
  | 0, _, _, _ => .error .panicked
  | fuel + 1, t1, t2, vars =>
    let ty1 := resolve2 (vars.length + 1) t1 vars
    let ty2 := resolve2 (vars.length + 1) t2 vars
    match ty1, ty2 with
    | .MetaVar var_id1, .MetaVar var_id2 =>
      if var_id1 = var_id2 then .ok vars
      else if has_fv (tc_fuel ty2 vars) ty2 var_id1 vars then .error .uf
      else .ok (vars.set var_id1 (some ty2))
    | .MetaVar var_id, _ =>
      if has_fv (tc_fuel ty2 vars) ty2 var_id vars then .error .uf
      else .ok (vars.set var_id (some ty2))
    | _, .MetaVar var_id =>
      if has_fv (tc_fuel ty1 vars) ty1 var_id vars then .error .uf
      else .ok (vars.set var_id (some ty1))
    | .Unit, .Unit => .ok vars
    | .String, .String => .ok vars
    | .Integer, .Integer => .ok vars
    | .Bool, .Bool => .ok vars
    | .Function args1 ret1, .Function args2 ret2 =>
      if args1.length ≠ args2.length then .error .uf
      else do
        let vars' ← (args1.zip args2).foldlM
          (fun vs p => unify_impl fuel p.1 p.2 vs) vars
        unify_impl fuel ret1 ret2 vars'
    | _, _ => .error .uf

/-- `Type::unify` from ntype.rs. -/
def unify (t1 t2 : Ty) (ctx : TyCtx) : Except TcFail TyCtx := do
  let vars ← unify_impl (tc_fuel t1 ctx.vars + tc_fuel t2 ctx.vars)
    t1 t2 ctx.vars
  .ok ⟨vars⟩

end Ntype

/-! ## ast.rs — the resolved AST (the variant used by ast_typecheck.rs) -/

namespace Ast

/-- `Ident` from ast.rs: a source name plus its resolved id. -/
structure Ident where
  name : String
  id : Id
deriving DecidableEq, Repr

/-- `BinOp` from ast.rs. -/
inductive BinOp where
  | Add | Lt
deriving DecidableEq, Repr

mutual

/-- `Expr` from ast.rs. -/
inductive Expr where
  | Var (ident : Ident)
  | Branch (cond : Expr) (then_ : Expr) (else_ : Expr)
  | While (cond : Expr) (body : Expr)
  | Block (stmts : List Stmt)
  | Assign (lhs : Ident) (rhs : Expr)
  | Call (callee : Expr) (args : List Expr)
  | IntegerLiteral (value : Int)
  | StringLiteral (value : String)
  | BinOp (op : BinOp) (lhs : Expr) (rhs : Expr)

/-- `Stmt` from ast.rs. -/
inductive Stmt where
  | Let (lhs : Ident) (init : Expr)
  | Expr (expr : Expr) (use_value : Bool)

end

end Ast

/-! ## ast_typecheck.rs — the AST type checker -/

namespace AstTypecheck

open Ntype Ast

/-- `TypeChecker` from ast_typecheck.rs: the shared `TyCtx` plus the
`var_types: HashMap<Id, Type>` map, modelled as an association list whose
most recent insertion wins. -/
structure TypeChecker where
  ty_ctx : TyCtx
  var_types : List (Id × Ty)

/-- `HashMap::get` on the modelled map. -/
def lookup_var (l : List (Id × Ty)) (id : Id) : Option Ty :=
  (l.find? (fun p => p.1 = id)).map (·.2)

/-- `TypeChecker::new`: the variable-type map starts empty; nothing is
pre-recorded for builtins. -/
def TypeChecker.new (ty_ctx : TyCtx) : TypeChecker := ⟨ty_ctx, []⟩

/-- `typecheck_ident` from ast_typecheck.rs:
`debug_assert!(!ident.id.is_dummy())`, then
`self.var_types.get(&ident.id).unwrap()` — an ident whose id was never
recorded (builtins included) panics. -/
def typecheck_ident (tc : TypeChecker) (ident : Ident) :
    Except TcFail (Ty × TypeChecker) :=
  if ident.id.is_dummy then .error .panicked
  else
    match lookup_var tc.var_types ident.id with
    | some ty => .ok (ty, tc)
    | none => .error .panicked

mutual

/-- `typecheck_expr` from ast_typecheck.rs. -/
def typecheck_expr (tc : TypeChecker) : Expr → Except TcFail (Ty × TypeChecker)
  | .Var ident => typecheck_ident tc ident
  | .Branch cond then_ else_ => do
    let (cond_ty, tc1) ← typecheck_expr tc cond
    let ctx2 ← unify cond_ty .Bool tc1.ty_ctx
    let (then_ty, tc3) ← typecheck_expr { tc1 with ty_ctx := ctx2 } then_
    let (else_ty, tc4) ← typecheck_expr tc3 else_
    let ctx5 ← unify then_ty else_ty tc4.ty_ctx
    .ok (then_ty, { tc4 with ty_ctx := ctx5 })
  | .While cond body => do
    let (cond_ty, tc1) ← typecheck_expr tc cond
    let ctx2 ← unify cond_ty .Bool tc1.ty_ctx
    let (body_ty, tc3) ← typecheck_expr { tc1 with ty_ctx := ctx2 } body
    let ctx4 ← unify body_ty .Unit tc3.ty_ctx
    .ok (.Unit, { tc3 with ty_ctx := ctx4 })
  | .Block stmts => typecheck_stmts tc stmts
  | .Assign lhs rhs => do
    let (lhs_ty, tc1) ← typecheck_ident tc lhs
    let (rhs_ty, tc2) ← typecheck_expr tc1 rhs
    let ctx3 ← unify lhs_ty rhs_ty tc2.ty_ctx
    .ok (.Unit, { tc2 with ty_ctx := ctx3 })
  | .Call callee args => do
    let (callee_ty, tc1) ← typecheck_expr tc callee
    let (arg_tys, tc2) ← typecheck_exprs tc1 args
    let p := Ty.fresh tc2.ty_ctx
    let func_ty := Ty.Function arg_tys p.1
    let ctx3 ← unify callee_ty func_ty p.2
    .ok (p.1, { tc2 with ty_ctx := ctx3 })
  | .IntegerLiteral _ => .ok (.Integer, tc)
  | .StringLiteral _ => .ok (.String, tc)
  | .BinOp op lhs rhs => do
    let op_ty := match op with
      | .Add => Ty.Function [.Integer, .Integer] .Integer
      | .Lt => Ty.Function [.Integer, .Integer] .Bool
    let (lhs_ty, tc1) ← typecheck_expr tc lhs
    let (rhs_ty, tc2) ← typecheck_expr tc1 rhs
    let p := Ty.fresh tc2.ty_ctx
    let ctx3 ← unify op_ty (.Function [lhs_ty, rhs_ty] p.1) p.2
    .ok (p.1, { tc2 with ty_ctx := ctx3 })

/-- Left-to-right elaboration of `Call` arguments. -/
def typecheck_exprs (tc : TypeChecker) :
    List Expr → Except TcFail (List Ty × TypeChecker)
  | [] => .ok ([], tc)
  | e :: rest => do
    let (ty, tc1) ← typecheck_expr tc e
    let (tys, tc2) ← typecheck_exprs tc1 rest
    .ok (ty :: tys, tc2)

/-- `typecheck_stmt` from ast_typecheck.rs. The
`debug_assert!(!self.var_types.contains_key(&lhs.id))` on `Let` panics on a
re-recorded id. -/
def typecheck_stmt (tc : TypeChecker) : Stmt → Except TcFail (Ty × TypeChecker)
  | .Let lhs init => do
    let (init_ty, tc1) ← typecheck_expr tc init
    if (lookup_var tc1.var_types lhs.id).isSome then .error .panicked
    else
      .ok (.Unit,
        { tc1 with var_types := (lhs.id, init_ty) :: tc1.var_types })
  | .Expr e use_value => do
    let (ty, tc1) ← typecheck_expr tc e
    .ok (if use_value then ty else .Unit, tc1)

/-- `typecheck_stmts` from ast_typecheck.rs: the running `final_type` starts
as `Unit` and is overwritten by each statement, so the last one wins. -/
def typecheck_stmts (tc : TypeChecker) :
    List Stmt → Except TcFail (Ty × TypeChecker)
  | [] => .ok (.Unit, tc)
  | [s] => typecheck_stmt tc s
  | s :: rest => do
    let (_, tc1) ← typecheck_stmt tc s
    typecheck_stmts tc1 rest

end

/-- `typecheck_program` from ast_typecheck.rs: the body's type must unify
with `Unit`. -/
def typecheck_program (tc : TypeChecker) (program : List Stmt) :
    Except TcFail TypeChecker := do
  let (ty, tc1) ← typecheck_stmts tc program
  let ctx2 ← unify ty .Unit tc1.ty_ctx
  .ok { tc1 with ty_ctx := ctx2 }

/-- `typecheck` from ast_typecheck.rs: runs a fresh `TypeChecker` — with an
empty variable-type map — over the program. -/
def typecheck (program : List Stmt) (ty_ctx : TyCtx) : Except TcFail TyCtx :=
  (typecheck_program (TypeChecker.new ty_ctx) program).map (·.ty_ctx)

end AstTypecheck

/-! ## ast_lowering.rs — AST → SIR lowering

ast_lowering.rs is written against an earlier revision of the AST and SIR
than ast.rs / sir.rs: its `Expr::Var`, `Let` and `Assign` carry `name`/`id`
fields directly, its `sir::BasicBlock` is only a list of instructions, and
builtin calls lower to a combined `CallBuiltin` instruction. The model
mirrors that revision faithfully. -/

namespace AstLowering

/-- `ast::BuiltinKind` of the revision ast_lowering.rs builds against:
only the effectful builtins have names. -/
inductive ABuiltinKind where
  | Puts | Puti
deriving DecidableEq, Repr

/-- `BinOp` of that revision. -/
inductive ABinOp where
  | Add | Lt
deriving DecidableEq, Repr

mutual

/-- `Expr` of the revision ast_lowering.rs builds against (no
`StringLiteral` case is consumed by the lowering source). -/
inductive AExpr where
  | Var (name : String) (id : Id)
  | Branch (cond : AExpr) (then_ : AExpr) (else_ : AExpr)
  | While (cond : AExpr) (body : AExpr)
  | Block (stmts : List AStmt)
  | Assign (name : String) (id : Id) (rhs : AExpr)
  | Call (callee : AExpr) (args : List AExpr)
  | IntegerLiteral (value : Int)
  | BinOp (op : ABinOp) (lhs : AExpr) (rhs : AExpr)

/-- `Stmt` of that revision. -/
inductive AStmt where
  | Let (name : String) (id : Id) (init : AExpr)
  | Expr (expr : AExpr) (use_value : Bool)

end

/-- `sir::BuiltinKind` as consumed by this lowering. -/
inductive LBuiltinKind where
  | Add | Lt | Puts | Puti
deriving DecidableEq, Repr

/-- `sir::InstKind` of that revision: builtin calls are a single
`CallBuiltin` instruction. -/
inductive LInstKind where
  | Jump (target : ℕ)
  | Branch (cond : ℕ) (branch_then : ℕ) (branch_else : ℕ)
  | Return (rhs : ℕ)
  | Copy (lhs : ℕ) (rhs : ℕ)
  | Literal (lhs : ℕ) (value : Sir.Literal)
  | PushArg (value_ref : ℕ)
  | CallBuiltin (lhs : ℕ) (builtin : LBuiltinKind)
deriving DecidableEq, Repr

/-- `sir::BasicBlock` of that revision: just the instruction list
(`sir::BasicBlock { insts: vec![] }` in the lowering source). -/
structure LBasicBlock where
  insts : List LInstKind
deriving DecidableEq, Repr

instance : Inhabited LBasicBlock := ⟨⟨[]⟩⟩

/-- `sir::Function` of that revision. -/
structure LFunction where
  num_args : ℕ
  num_vars : ℕ
  body : List LBasicBlock
deriving DecidableEq, Repr

/-- `function.body[*bb_id].insts.push(inst)`: append to the current block
(out-of-range `bb_id` panics in the source; `List.set` leaves the function
unchanged there, unreachable for the indices the lowering uses). -/
def push_inst (f : LFunction) (bb_id : ℕ) (k : LInstKind) : LFunction :=
  { f with
    body := f.body.set bb_id ⟨(f.body.getD bb_id default).insts ++ [k]⟩ }

/-- `function.body.push(BasicBlock { insts: vec![] })`. -/
def push_block (f : LFunction) : LFunction :=
  { f with body := f.body ++ [⟨[]⟩] }

/-- The `var_id_map: HashMap<Id, usize>` of the lowering, modelled as a
total function (an unmapped id panics in the source; resolution maps every
id the body mentions). -/
def VarMap := Id → ℕ

/-- The `builtin_ids.builtins: HashMap<Id, BuiltinKind>` lookup. -/
def BuiltinMap := Id → Option ABuiltinKind

/-- The `match builtin { Puts => sir::Puts, Puti => sir::Puti }` in the
`Call` arm. -/
def builtin_to_sir : ABuiltinKind → LBuiltinKind
  | .Puts => .Puts
  | .Puti => .Puti

/-- The `match op { Add => sir::Add, Lt => sir::Lt }` in the `BinOp` arm. -/
def op_to_sir : ABinOp → LBuiltinKind
  | .Add => .Add
  | .Lt => .Lt

mutual

/-- `lower_stmts` from ast_lowering.rs: only the last statement receives
the caller's result slot. -/
def lower_stmts (b : BuiltinMap) (m : VarMap) (stmts : List AStmt)
    (f : LFunction) (bb_id : ℕ) (result_var : ℕ) :
    Option (LFunction × ℕ) :=
  match stmts with
  | [] => some (f, bb_id)
  | [stmt] => lower_stmt b m stmt f bb_id (some result_var)
  | stmt :: rest => do
    let p ← lower_stmt b m stmt f bb_id none
    lower_stmts b m rest p.1 p.2 result_var

/-- `lower_stmt` from ast_lowering.rs. `debug_assert!`s are modelled as
no-ops; `result_var.unwrap()` with `use_value` and no slot panics
(`none`). -/
def lower_stmt (b : BuiltinMap) (m : VarMap) (stmt : AStmt)
    (f : LFunction) (bb_id : ℕ) (result_var : Option ℕ) :
    Option (LFunction × ℕ) :=
  match stmt with
  | .Let _ id init => do
    let p ← lower_expr b m init f bb_id (m id)
    match result_var with
    | some r => some (push_inst p.1 p.2 (.Literal r .Unit), p.2)
    | none => some p
  | .Expr e use_value =>
    match use_value, result_var with
    | true, none => none
    | true, some r => lower_expr b m e f bb_id r
    | false, _ => do
      let dummy := f.num_vars
      let f1 := { f with num_vars := f.num_vars + 1 }
      let p ← lower_expr b m e f1 bb_id dummy
      match result_var with
      | some r => some (push_inst p.1 p.2 (.Literal r .Unit), p.2)
      | none => some p

/-- `lower_expr` from ast_lowering.rs. Note the `While` arm: the condition
and the body are both lowered into the caller-supplied `result_var`, the
branch tests `result_var`, and nothing is emitted into the continuation
block. `todo!("non-builtin call")` is modelled as `none`. -/
def lower_expr (b : BuiltinMap) (m : VarMap) (e : AExpr)
    (f : LFunction) (bb_id : ℕ) (result_var : ℕ) :
    Option (LFunction × ℕ) :=
  match e with
  | .Var _ id => some (push_inst f bb_id (.Copy result_var (m id)), bb_id)
  | .Branch cond then_ else_ => do
    let pc ← lower_expr2 b m cond f bb_id
    let branch_bb_id := pc.2.1
    let then_bb_id := pc.1.body.length
    let f1 := push_block pc.1
    let pt ← lower_expr b m then_ f1 then_bb_id result_var
    let else_bb_id := pt.1.body.length
    let f2 := push_block pt.1
    let pe ← lower_expr b m else_ f2 else_bb_id result_var
    let cont_bb_id := pe.1.body.length
    let f3 := push_block pe.1
    let f4 := push_inst f3 branch_bb_id
      (.Branch pc.2.2 then_bb_id else_bb_id)
    let f5 := push_inst f4 then_bb_id (.Jump cont_bb_id)
    let f6 := push_inst f5 else_bb_id (.Jump cont_bb_id)
    some (f6, cont_bb_id)
  | .While cond body => do
    let prev_bb_id := bb_id
    let cond_bb_id := f.body.length
    let f1 := push_block f
    let pc ← lower_expr b m cond f1 cond_bb_id result_var
    let body_bb_id := pc.1.body.length
    let f2 := push_block pc.1
    let pb ← lower_expr b m body f2 body_bb_id result_var
    let cont_bb_id := pb.1.body.length
    let f3 := push_block pb.1
    let f4 := push_inst f3 prev_bb_id (.Jump cond_bb_id)
    let f5 := push_inst f4 cond_bb_id
      (.Branch result_var body_bb_id cont_bb_id)
    let f6 := push_inst f5 body_bb_id (.Jump cond_bb_id)
    some (f6, cont_bb_id)
  | .Block stmts => lower_stmts b m stmts f bb_id result_var
  | .Assign _ id rhs => do
    let p ← lower_expr b m rhs f bb_id (m id)
    some (push_inst p.1 p.2 (.Literal result_var .Unit), p.2)
  | .Call callee args =>
    let builtin := match callee with
      | .Var _ id => b id
      | _ => none
    match builtin with
    | some bk => do
      let pa ← lower_expr_list b m args f bb_id
      let f1 := pa.2.2.foldl
        (fun fa v => push_inst fa pa.2.1 (.PushArg v)) pa.1
      some (push_inst f1 pa.2.1
        (.CallBuiltin result_var (builtin_to_sir bk)), pa.2.1)
    | none => none
  | .IntegerLiteral v =>
    some (push_inst f bb_id (.Literal result_var (.Integer v)), bb_id)
  | .BinOp op lhs rhs => do
    let pl ← lower_expr2 b m lhs f bb_id
    let pr ← lower_expr2 b m rhs pl.1 pl.2.1
    let f1 := push_inst pr.1 pr.2.1 (.PushArg pl.2.2)
    let f2 := push_inst f1 pr.2.1 (.PushArg pr.2.2)
    some (push_inst f2 pr.2.1
      (.CallBuiltin result_var (op_to_sir op)), pr.2.1)

/-- `lower_expr2` from ast_lowering.rs: allocate a fresh slot, lower the
expression into it, return (function, current block, the fresh slot). -/
def lower_expr2 (b : BuiltinMap) (m : VarMap) (e : AExpr)
    (f : LFunction) (bb_id : ℕ) :
    Option (LFunction × ℕ × ℕ) := do
  let result_var := f.num_vars
  let f1 := { f with num_vars := f.num_vars + 1 }
  let p ← lower_expr b m e f1 bb_id result_var
  some (p.1, p.2, result_var)

/-- The `args.iter().map(|arg| lower_expr2(…)).collect()` of the `Call`
arm: lowers the arguments left to right, returning their fresh slots. -/
def lower_expr_list (b : BuiltinMap) (m : VarMap) (args : List AExpr)
    (f : LFunction) (bb_id : ℕ) :
    Option (LFunction × ℕ × List ℕ) :=
  match args with
  | [] => some (f, bb_id, [])
  | a :: rest => do
    let p ← lower_expr2 b m a f bb_id
    let q ← lower_expr_list b m rest p.1 p.2.1
    some (q.1, q.2.1, p.2.2 :: q.2.2)

end

end AstLowering

/-! ## Apparatus for the liveness-termination development -/

namespace SirCompile

open Sir

instance : Inhabited Inst := ⟨⟨.Jump 0, none⟩⟩

/-- The `live_in` annotation of block `b`. -/
def live_in_at (function : Function) (b : ℕ) : Option BitSet :=
  (function.body.getD b default).live_in

/-- Size of one `live_in` annotation: an unset annotation is strictly below
any set one, a set one grows with its set. -/
def measure_opt : Option BitSet → ℕ
  | none => 0
  | some s => s.length + 1

/-- Total size of all `live_in` annotations: the strictly increasing
quantity of the liveness fixed-point iteration. -/
def live_measure (function : Function) : ℕ :=
  ∑ b ∈ Finset.range function.body.length, measure_opt (live_in_at function b)

/-- The transfer functions of a list of instructions, applied in list
order (for a block walk, the list is the reversed instruction list). -/
def transfer_chain (insts : List Inst) (alive : BitSet) : BitSet :=
  insts.foldl (fun a i => update_alive i a) alive

/-- The value a full (non-early-exited) backward walk of `liveness_bb`
assigns to block `b`'s `live_in`. -/
def block_live_in_to_be (function : Function) (b : ℕ) : BitSet :=
  transfer_chain (function.body.getD b default).insts.reverse
    (block_live_out_to_be function (function.body.getD b default))

/-- Normal form of `block_live_out_to_be`: it only depends on the kind of
the block's last instruction, and the missing-else case collapses into a
union with the empty set. -/
def blotb_spec (function : Function) (k : Option InstKind) : BitSet :=
  match k with
  | some (.Jump target) => ((function.body.getD target default).live_in).getD []
  | some (.Branch _ branch_then branch_else) =>
    (((function.body.getD branch_then default).live_in).getD []).union_with
      (((function.body.getD branch_else default).live_in).getD [])
  | _ => []

/-- The invariant of the iteration when started from unset annotations:
every set `live_in` is below what a recomputation would give now, and lives
in the finite universe. -/
def live_inv (function : Function) : Prop :=
  ∀ b < function.body.length,
    (live_in_at function b).getD [] ⊆ block_live_in_to_be function b ∧
    (live_in_at function b).getD [] ⊆ live_univ function ∧
    BitSet.Canonical ((live_in_at function b).getD [])

/-- A block whose stored annotations make `liveness_bb` exit without any
change: for a nonempty block the terminator's stored `live_out` equals the
recomputed tentative live-out (the walk exits at its first step); for an
empty block the stored `live_in` equals it. -/
def stable_block (function : Function) (b : ℕ) : Prop :=
  match (function.body.getD b default).insts.getLast? with
  | some last =>
    last.live_out =
      some (block_live_out_to_be function (function.body.getD b default))
  | none =>
    (function.body.getD b default).live_in =
      some (block_live_out_to_be function (function.body.getD b default))

/-- The ids an instruction mentions in variable positions. -/
def var_ids_of (k : InstKind) : BitSet :=
  match k with
  | .Jump _ => []
  | .Branch cond _ _ => [cond]
  | .Return rhs => [rhs]
  | .Copy lhs rhs => BitSet.insert lhs [rhs]
  | .Drop rhs => [rhs]
  | .Literal lhs _ => [lhs]
  | .Closure lhs _ => [lhs]
  | .Builtin lhs _ => [lhs]
  | .PushArg value_ref => [value_ref]
  | .Call lhs callee => BitSet.insert lhs [callee]

/-- All variable ids of the function's instructions are below `num_vars`. -/
def vars_below (function : Function) : Prop :=
  ∀ bb ∈ function.body, ∀ i ∈ bb.insts,
    var_ids_of i.kind ⊆ BitSet.range function.num_vars

/-- No liveness annotation has been filled in yet — the state in which
lowering hands a function to the compilation pass. -/
def unannotated (function : Function) : Prop :=
  ∀ bb ∈ function.body, bb.live_in = none ∧ ∀ i ∈ bb.insts, i.live_out = none

end SirCompile

/-! ## Concrete inputs used by the claims -/

namespace Examples

open Sir SirCompile

/-- A trivially valid helper function: one variable, `Return 0`. -/
def c1_g : Function := ⟨0, 1, [⟨[⟨.Return 0, none⟩], none⟩]⟩

/-- A function whose `Closure` instruction's `function_id` (2) collides
with the fresh variable the copy insertion allocates (`num_vars` = 2). -/
def c1_f : Function :=
  ⟨0, 2, [⟨[⟨.Literal 0 (.Integer 42), none⟩, ⟨.PushArg 0, none⟩,
            ⟨.Closure 1 2, none⟩, ⟨.Return 0, none⟩], none⟩]⟩

/-- A well-formed program unit (three functions, so function id 2 is
valid) on which the compiled output breaks linear use. -/
def c1_unit : ProgramUnit := ⟨[c1_f, c1_g, c1_g]⟩

/-- One function with an unused argument: `num_args` = 1, body
`Literal(0, Unit); Return 0`. -/
def c2_fn : Function :=
  ⟨1, 1, [⟨[⟨.Literal 0 .Unit, none⟩, ⟨.Return 0, none⟩], none⟩]⟩

/-- A well-formed program unit on which `compile ∘ compile ≠ compile`. -/
def c2_unit : ProgramUnit := ⟨[c2_fn]⟩

/-- A three-block `Jump` cycle with adversarial pre-set annotations: the
liveness sweep oscillates with period two and never converges. -/
def c5_cycle : Function :=
  ⟨0, 3, [⟨[⟨.Jump 1, none⟩], some []⟩,
          ⟨[⟨.Jump 2, none⟩], some [1]⟩,
          ⟨[⟨.Jump 0, none⟩], some [2]⟩]⟩

/-- State of the oscillation after one sweep. -/
def c5_s1 : Function := (liveness_step c5_cycle).1

/-- State of the oscillation after two sweeps. -/
def c5_s2 : Function := (liveness_step c5_s1).1

/-- A program unit whose single function has a block with zero
instructions. -/
def c6_empty_unit : ProgramUnit := ⟨[⟨0, 0, [⟨[], none⟩]⟩]⟩

/-- A block with a tail in its interior and a non-tail last instruction. -/
def c6_bad_block : BasicBlock :=
  ⟨[⟨.Return 0, none⟩, ⟨.Literal 0 .Unit, none⟩], none⟩

/-- The function holding `c6_bad_block`. -/
def c6_bad_fn : Function := ⟨0, 1, [c6_bad_block]⟩

/-- A program unit whose single block has a tail in its interior and a
non-tail last instruction. -/
def c6_bad_unit : ProgramUnit := ⟨[c6_bad_fn]⟩

/-- A resolved program whose body is a bare reference to the builtin
`puts` (resolved to the non-dummy id 1). -/
def c7_program : List Ast.Stmt := [.Expr (.Var ⟨"puts", ⟨1⟩⟩) false]

open AstLowering in
/-- A builtin map with no entries (the `While` lowering consults none). -/
def c4_bmap : BuiltinMap := fun _ => none

open AstLowering in
/-- A variable map (unconsulted by the `While` lowering example). -/
def c4_vmap : VarMap := fun _ => 0

open AstLowering in
/-- The lowering state at the start of a body: one empty entry block, the
result slot 0 already allocated. -/
def c4_fin : LFunction := ⟨0, 1, [⟨[]⟩]⟩

/-- An unannotated function handed to `liveness` as lowering produces it:
no `live_in`, no `live_out` set anywhere. -/
def c5_term_fn : Function := ⟨0, 1, [⟨[⟨.Return 0, none⟩], none⟩]⟩

end Examples

/-! ## Theorems -/

open Sir SirCompile SirEval Examples

theorem gen_after_eq (k : ℕ) : gen_after k = ⟨k + 1⟩ := by
  induction k with
  | zero => rfl
  | succ n ih => simp [gen_after, IdGen.fresh, ih]

theorem nth_fresh_eq (k : ℕ) : nth_fresh k = ⟨k + 1⟩ := by
  simp [nth_fresh, gen_after_eq, IdGen.fresh]

/-- C8 (counterexample): the first `fresh()` call on two independently
constructed `IdGen`s — two distinct calls — returns equal ids, because each
generator starts its own counter at 1. -/
theorem c8_independent_generators_collide :
    call_result (0, 0) = call_result (1, 0) ∧ ((0, 0) : ℕ × ℕ) ≠ (1, 0) :=
  ⟨rfl, by decide⟩

/-- C8 (amended): on a single generator, two `fresh()` results compare
equal iff they come from the same call, and the dummy id 0 is never
issued. -/
theorem c8_single_generator_fresh_ids :
    (∀ i j : ℕ, nth_fresh i = nth_fresh j ↔ i = j) ∧
    ∀ k : ℕ, nth_fresh k ≠ Id.dummy := by
  refine ⟨fun i j => ?_, fun k => ?_⟩
  · simp [nth_fresh_eq, Id.mk.injEq]
  · simp [nth_fresh_eq, Id.dummy]

/-- C9 (counterexample): at `i32::MAX` and `1`, `Add` evaluates to the
wrapped value `i32::MIN`, not the integer sum `2147483648` — so "Add on two
integers returns their integer sum" fails at overflowing inputs. -/
theorem c9_add_overflow_counterexample :
    eval_builtin .Add [.Integer 2147483647, .Integer 1] =
      some (.Integer (-2147483648), []) ∧
    (2147483647 + 1 : Int) ≠ (-2147483648 : Int) := by
  exact ⟨by decide, by decide⟩

/-- C9 (amended): `Puts` calls the host once with its string argument and
returns integer 0; `Puti` calls it once with the decimal representation;
`Lt` returns 1 iff strictly less, else 0; `Add` returns the two's-complement
32-bit wrap of the sum — which equals the integer sum exactly when the sum
fits in `i32`. -/
theorem c9_eval_builtin_wrapping :
    (∀ s : String,
      eval_builtin .Puts [.String s] = some (.Integer 0, [s])) ∧
    (∀ n : Int,
      eval_builtin .Puti [.Integer n] = some (.Integer 0, [int_to_string n])) ∧
    (∀ i j : Int,
      eval_builtin .Add [.Integer i, .Integer j] =
        some (.Integer (wrap_i32 (i + j)), [])) ∧
    (∀ i j : Int,
      eval_builtin .Lt [.Integer i, .Integer j] =
        some (.Integer (if i < j then 1 else 0), [])) ∧
    (∀ i j : Int, -2147483648 ≤ i + j → i + j < 2147483648 →
      eval_builtin .Add [.Integer i, .Integer j] =
        some (.Integer (i + j), [])) := by
  refine ⟨fun _ => rfl, fun _ => rfl, fun _ _ => rfl, fun _ _ => rfl,
    fun i j h1 h2 => ?_⟩
  have hw : wrap_i32 (i + j) = i + j := by
    unfold wrap_i32
    omega
  rw [show eval_builtin .Add [.Integer i, .Integer j] =
    some (.Integer (wrap_i32 (i + j)), []) from rfl, hw]

/-- C9 witness: the amended theorem's in-range clause applied at `1 + 2`. -/
theorem c9_eval_builtin_wrapping_witness :
    (-2147483648 ≤ (1 + 2 : Int)) ∧ ((1 + 2 : Int) < 2147483648) ∧
    eval_builtin .Add [.Integer 1, .Integer 2] =
      some (.Integer (1 + 2), []) :=
  ⟨by decide, by decide,
    c9_eval_builtin_wrapping.2.2.2.2 1 2 (by decide) (by decide)⟩

/-- C10: converting a `Literal` to a runtime `Value` maps `Unit` to integer
0, `false`/`true` to 0/1, and keeps integers and strings; consequently
executing `Literal{lhs, Unit}` and `Literal{lhs, Integer 0}` yield the same
interpreter state, and `Unit`, `false` and `0` are indistinguishable at
run time. -/
theorem c10_literal_value_collapse :
    Value.ofLiteral .Unit = .Integer 0 ∧
    Value.ofLiteral (.Bool false) = .Integer 0 ∧
    Value.ofLiteral (.Bool true) = .Integer 1 ∧
    (∀ i : Int, Value.ofLiteral (.Integer i) = .Integer i) ∧
    (∀ s : String, Value.ofLiteral (.String s) = .String s) ∧
    (∀ (st : State) (lhs : ℕ),
      eval_literal_inst st lhs .Unit = eval_literal_inst st lhs (.Integer 0)) ∧
    Value.ofLiteral .Unit = Value.ofLiteral (.Bool false) ∧
    Value.ofLiteral .Unit = Value.ofLiteral (.Integer 0) :=
  ⟨rfl, rfl, rfl, fun _ => rfl, fun _ => rfl, fun _ _ => rfl, rfl, rfl⟩

/-- C3 (code evaluated at the failing input): processing
`Closure{lhs:0, function_id:1}` through the implemented transfer function
adds the function id 1 to an empty live set — the spec's table says the
uses of `Closure` are empty, so the result should have been `∅`. -/
theorem c3_closure_transfer_adds_function_id :
    update_alive (Inst.new (.Closure 0 1)) [] = [1] ∧
    update_alive (Inst.new (.Closure 0 1)) [] ≠ ([] : BitSet) := by
  constructor
  · decide
  · decide

/-- C1 (code evaluated at the failing input): `c1_unit` is well-formed, yet
in the compiled output the instruction at function 0, block 0, index 2 is
`PushArg 2` — a non-`Copy`, non-`Drop` instruction whose consumed operand 2
lies in its own `live_out` `{0, 2}`. The liveness pass treated the
`Closure`'s function id 2 as a live variable, and the copy inserted for the
still-live operand 0 was given the colliding fresh slot 2. -/
theorem c1_linear_use_violated_by_closure_liveness :
    c1_unit.validate_insts = .ok () ∧
    ((((compile c1_unit).functions.getD 0 default).body.getD 0
        default).insts.getD 2 default).kind = .PushArg 2 ∧
    ((((compile c1_unit).functions.getD 0 default).body.getD 0
        default).insts.getD 2 default).live_out = some [0, 2] ∧
    moved_rhs_of
      ((((compile c1_unit).functions.getD 0 default).body.getD 0
        default).insts.getD 2 default) = some 2 ∧
    2 ∈ ((((compile c1_unit).functions.getD 0 default).body.getD 0
        default).insts.getD 2 default).live_out.getD [] := by
  refine ⟨by decide, by decide, by decide, by decide, by decide⟩

theorem except_bind_ok {ε α β : Type} (a : Except ε α) (f : α → Except ε β)
    (x : β) (h : (a >>= f) = .ok x) : ∃ y, a = .ok y ∧ f y = .ok x := by
  cases a with
  | ok y => exact ⟨y, rfl, h⟩
  | error e => exact Except.noConfusion h

theorem validate_insts_from_ok {pu : ProgramUnit} {f : Function}
    {pos : SirPosition} {total : ℕ} :
    ∀ (l : List Inst) (i : ℕ),
      BasicBlock.validate_insts_from pu f pos total i l = .ok () →
      ∀ j (hj : j < l.length),
        (l.get ⟨j, hj⟩).kind.is_tail = (i + j == total - 1) := by
  intro l
  induction l with
  | nil => intro i h j hj; exact absurd hj (by simp)
  | cons inst rest ih =>
    intro i h j hj
    rw [BasicBlock.validate_insts_from] at h
    by_cases h1 : (i == total - 1) && !inst.kind.is_tail
    · rw [if_pos h1] at h; exact Except.noConfusion h
    · rw [if_neg h1] at h
      by_cases h2 : !(i == total - 1) && inst.kind.is_tail
      · rw [if_pos h2] at h; exact Except.noConfusion h
      · rw [if_neg h2] at h
        match j with
        | 0 =>
          simp only [List.get, Nat.add_zero]
          cases ha : (i == total - 1) <;> cases hb : inst.kind.is_tail <;>
            simp_all
        | j' + 1 =>
          obtain ⟨_, _, hrest⟩ := except_bind_ok _ _ _ h
          have := ih (i + 1) hrest j' (by simpa using hj)
          simpa [Nat.add_comm, Nat.add_assoc, Nat.add_left_comm] using this

theorem validate_blocks_from_ok {pu : ProgramUnit} {f : Function}
    {pos : SirPosition} :
    ∀ (l : List BasicBlock) (i : ℕ),
      Function.validate_blocks_from pu f pos i l = .ok () →
      ∀ bb ∈ l, ∃ k,
        bb.validate_insts pu f { pos with block_id := some k } = .ok () := by
  intro l
  induction l with
  | nil => intro i _ bb hbb; exact absurd hbb (by simp)
  | cons b rest ih =>
    intro i h bb hbb
    rw [Function.validate_blocks_from] at h
    obtain ⟨_, hb, hrest⟩ := except_bind_ok _ _ _ h
    rcases List.mem_cons.mp hbb with rfl | hmem
    · exact ⟨i, hb⟩
    · exact ih (i + 1) hrest bb hmem

theorem validate_functions_from_ok {pu : ProgramUnit} :
    ∀ (l : List Function) (i : ℕ),
      ProgramUnit.validate_functions_from pu i l = .ok () →
      ∀ f ∈ l, ∃ k, f.validate_insts pu ⟨k, none, none⟩ = .ok () := by
  intro l
  induction l with
  | nil => intro i _ f hf; exact absurd hf (by simp)
  | cons g rest ih =>
    intro i h f hf
    rw [ProgramUnit.validate_functions_from] at h
    obtain ⟨_, hg, hrest⟩ := except_bind_ok _ _ _ h
    rcases List.mem_cons.mp hf with rfl | hmem
    · exact ⟨i, hg⟩
    · exact ih (i + 1) hrest f hmem

theorem function_validate_ok {pu : ProgramUnit} {f : Function}
    {pos : SirPosition} (h : f.validate_insts pu pos = .ok ()) :
    Function.validate_blocks_from pu f pos 0 f.body = .ok () := by
  rw [Function.validate_insts] at h
  by_cases hc : f.num_vars < f.num_args
  · simp only [hc, if_true] at h
    exact Except.noConfusion (except_bind_ok _ _ _ h).choose_spec.1
  · simpa only [hc, if_false] using h

/-- C6 (counterexample): a basic block with zero instructions is accepted —
the per-instruction loop of `validate_insts` runs zero times, so the
missing tail goes unnoticed and validation succeeds. -/
theorem c6_empty_block_accepted :
    ((c6_empty_unit.functions.getD 0 default).body.getD 0 default).insts =
      ([] : List Inst) ∧
    c6_empty_unit.validate_insts = .ok () := ⟨rfl, rfl⟩

/-- C6 (amended): for every function of a program unit containing a
*nonempty* basic block that does not end in a tail instruction, or that has
a tail instruction before its last position, `validate_insts` returns an
error. (A block with zero instructions is accepted, see the
counterexample.) -/
theorem c6_tail_violation_rejected (pu : ProgramUnit) (f : Function)
    (bb : BasicBlock) (hf : f ∈ pu.functions) (hbb : bb ∈ f.body)
    (hne : bb.insts ≠ [])
    (hviol : (bb.insts.getLast hne).kind.is_tail = false ∨
      ∃ j, ∃ hj : j < bb.insts.length,
        j + 1 < bb.insts.length ∧ (bb.insts.get ⟨j, hj⟩).kind.is_tail = true) :
    ∃ e, pu.validate_insts = .error e := by
  cases hall : pu.validate_insts with
  | error e => exact ⟨e, rfl⟩
  | ok u =>
    cases u
    exfalso
    obtain ⟨k, hfok⟩ :=
      validate_functions_from_ok pu.functions 0 hall f hf
    obtain ⟨k', hbok⟩ :=
      validate_blocks_from_ok f.body 0 (function_validate_ok hfok) bb hbb
    rw [BasicBlock.validate_insts] at hbok
    have hpos := validate_insts_from_ok bb.insts 0 hbok
    rcases hviol with hlast | ⟨j, hj, hjlt, htail⟩
    · have hlen : 0 < bb.insts.length := List.length_pos.mpr hne
      have hget := hpos (bb.insts.length - 1) (by omega)
      rw [List.getLast_eq_getElem] at hlast
      simp only [List.get_eq_getElem, Nat.zero_add] at hget
      rw [hlast] at hget
      simp at hget
    · have hget := hpos j hj
      rw [htail] at hget
      have hne2 : (0 + j == bb.insts.length - 1) = false := by
        simp only [Nat.zero_add, beq_eq_false_iff_ne, ne_eq]
        omega
      rw [hne2] at hget
      exact Bool.noConfusion hget

/-- C6 witness: the amended theorem applied to a concrete unit whose single
block is `[Return 0; Literal 0 Unit]` — a tail in the interior and a
non-tail last instruction. -/
theorem c6_tail_violation_rejected_witness :
    (c6_bad_fn ∈ c6_bad_unit.functions ∧ c6_bad_block ∈ c6_bad_fn.body ∧
      c6_bad_block.insts ≠ [] ∧
      (c6_bad_block.insts.getLast (by decide)).kind.is_tail = false) ∧
    ∃ e, c6_bad_unit.validate_insts = .error e :=
  ⟨⟨by decide, by decide, by decide, rfl⟩,
   c6_tail_violation_rejected c6_bad_unit c6_bad_fn c6_bad_block
     (by decide) (by decide) (by decide) (Or.inl rfl)⟩

/-- C2 (code evaluated at the failing input): `c2_unit` is well-formed, yet
compiling its compiled form is not a no-op — the second run prepends a
second `Drop` of the unused argument, because the early exit of the
liveness walk leaves the stale `live_in` (which ignores the inserted
`Drop`'s use) in place and the carried-over drop is inserted again. -/
theorem c2_compile_not_idempotent :
    c2_unit.validate_insts = .ok () ∧
    compile (compile c2_unit) ≠ compile c2_unit := by
  exact ⟨by decide, by decide⟩

theorem c5_orbit_s1 : liveness_step c5_s1 = (c5_s2, true) := by decide

theorem c5_orbit_s2 : liveness_step c5_s2 = (c5_s1, true) := by decide

theorem c5_orbit_alt (n : ℕ) :
    (step_iter n c5_s1 = c5_s1 ∨ step_iter n c5_s1 = c5_s2) ∧
    (step_iter n c5_s2 = c5_s1 ∨ step_iter n c5_s2 = c5_s2) := by
  induction n with
  | zero => exact ⟨Or.inl rfl, Or.inr rfl⟩
  | succ m ih =>
    constructor
    · have h1 : step_iter (m + 1) c5_s1 = step_iter m c5_s2 := by
        rw [step_iter, c5_orbit_s1]
      rw [h1]
      exact ih.2
    · have h2 : step_iter (m + 1) c5_s2 = step_iter m c5_s1 := by
        rw [step_iter, c5_orbit_s2]
      rw [h2]
      exact ih.1

/-- C5 (counterexample): on `c5_cycle` — a function with a finite
three-block body whose variable ids 1, 2 are below `num_vars` = 3, but
whose pre-set `live_in` annotations are adversarial — the liveness loop
never reaches a sweep without a `live_in` change: the state oscillates with
period two, so the `while updated` loop runs forever. -/
theorem c5_liveness_divergence_counterexample :
    ¬ ∃ n, (liveness_step (step_iter n c5_cycle)).2 = false := by
  rintro ⟨n, hn⟩
  match n with
  | 0 =>
    rw [show step_iter 0 c5_cycle = c5_cycle from rfl] at hn
    rw [show liveness_step c5_cycle = (c5_s1, true) from by decide] at hn
    exact Bool.noConfusion hn
  | m + 1 =>
    rw [show step_iter (m + 1) c5_cycle = step_iter m c5_s1 from by
      rw [step_iter]; rfl] at hn
    rcases (c5_orbit_alt m).1 with h | h <;> rw [h] at hn
    · rw [c5_orbit_s1] at hn; exact Bool.noConfusion hn
    · rw [c5_orbit_s2] at hn; exact Bool.noConfusion hn

/-! ### Theory of the canonical-list bit sets -/

theorem BitSet.mem_insert {a b : ℕ} {s : BitSet} :
    a ∈ BitSet.insert b s ↔ a = b ∨ a ∈ s := by
  induction s with
  | nil => simp [BitSet.insert]
  | cons c t ih =>
    rw [BitSet.insert]
    by_cases h1 : b < c
    · simp [h1]
    · by_cases h2 : b = c
      · subst h2
        rw [if_neg h1, if_pos rfl, List.mem_cons]
        constructor
        · exact Or.inr
        · rintro (rfl | h)
          · exact Or.inl rfl
          · exact h
      · simp only [if_neg h1, if_neg h2, List.mem_cons, ih]
        tauto

theorem BitSet.insert_canonical {a : ℕ} {s : BitSet}
    (h : BitSet.Canonical s) : BitSet.Canonical (BitSet.insert a s) := by
  induction s with
  | nil => simp [BitSet.insert, BitSet.Canonical]
  | cons c t ih =>
    rw [BitSet.Canonical, List.sorted_cons] at h
    rw [BitSet.insert]
    by_cases h1 : a < c
    · rw [if_pos h1]
      rw [BitSet.Canonical, List.sorted_cons]
      refine ⟨?_, by rw [List.sorted_cons]; exact h⟩
      intro y hy
      rcases List.mem_cons.mp hy with rfl | hy
      · exact h1
      · exact h1.trans (h.1 y hy)
    · by_cases h2 : a = c
      · rw [if_neg h1, if_pos h2]
        rw [BitSet.Canonical, List.sorted_cons]
        exact h
      · rw [if_neg h1, if_neg h2]
        rw [BitSet.Canonical, List.sorted_cons]
        constructor
        · intro y hy
          rcases BitSet.mem_insert.mp hy with rfl | hy
          · omega
          · exact h.1 y hy
        · exact ih h.2

theorem BitSet.insert_mono {a : ℕ} {s t : BitSet} (h : s ⊆ t) :
    BitSet.insert a s ⊆ BitSet.insert a t := by
  intro x hx
  rcases BitSet.mem_insert.mp hx with rfl | hx
  · exact BitSet.mem_insert.mpr (Or.inl rfl)
  · exact BitSet.mem_insert.mpr (Or.inr (h hx))

theorem BitSet.subset_insert {a : ℕ} {s : BitSet} :
    s ⊆ BitSet.insert a s := fun _ hx => BitSet.mem_insert.mpr (Or.inr hx)

theorem BitSet.mem_remove {a b : ℕ} {s : BitSet} :
    a ∈ BitSet.remove b s ↔ a ∈ s ∧ a ≠ b := by
  simp [BitSet.remove, List.mem_filter]

theorem BitSet.remove_canonical {a : ℕ} {s : BitSet}
    (h : BitSet.Canonical s) : BitSet.Canonical (BitSet.remove a s) :=
  List.Sorted.filter _ h

theorem BitSet.remove_mono {a : ℕ} {s t : BitSet} (h : s ⊆ t) :
    BitSet.remove a s ⊆ BitSet.remove a t := by
  intro x hx
  rw [BitSet.mem_remove] at hx ⊢
  exact ⟨h hx.1, hx.2⟩

theorem BitSet.remove_subset {a : ℕ} {s : BitSet} :
    BitSet.remove a s ⊆ s := fun _ hx => (BitSet.mem_remove.mp hx).1

theorem BitSet.mem_union {a : ℕ} {s t : BitSet} :
    a ∈ s.union_with t ↔ a ∈ s ∨ a ∈ t := by
  induction t with
  | nil => simp [BitSet.union_with]
  | cons c t' ih =>
    show a ∈ BitSet.insert c (s.union_with t') ↔ _
    rw [BitSet.mem_insert, ih]
    simp only [List.mem_cons]
    tauto

theorem BitSet.union_canonical {s t : BitSet} (h : BitSet.Canonical s) :
    BitSet.Canonical (s.union_with t) := by
  induction t with
  | nil => exact h
  | cons c t' ih => exact BitSet.insert_canonical ih

theorem BitSet.union_mono {s s' t t' : BitSet} (hs : s ⊆ s') (ht : t ⊆ t') :
    s.union_with t ⊆ s'.union_with t' := by
  intro x hx
  rw [BitSet.mem_union] at hx ⊢
  rcases hx with hx | hx
  · exact Or.inl (hs hx)
  · exact Or.inr (ht hx)

theorem BitSet.union_nil (s : BitSet) : s.union_with [] = s := rfl

theorem BitSet.mem_difference {a : ℕ} {s t : BitSet} :
    a ∈ s.difference_with t ↔ a ∈ s ∧ a ∉ t := by
  simp [BitSet.difference_with, List.mem_filter]

theorem BitSet.nil_canonical : BitSet.Canonical ([] : BitSet) := by
  simp [BitSet.Canonical]

theorem BitSet.range_canonical (n : ℕ) :
    BitSet.Canonical (BitSet.range n) := List.sorted_lt_range n

theorem BitSet.canonical_nodup {s : BitSet} (h : BitSet.Canonical s) :
    s.Nodup := h.nodup

theorem BitSet.length_le_of_subset {s t : BitSet} (hc : BitSet.Canonical s)
    (h : s ⊆ t) : s.length ≤ t.length :=
  (List.subperm_of_subset (BitSet.canonical_nodup hc) h).length_le

theorem BitSet.length_lt_of_ssubset {s t : BitSet} (hs : BitSet.Canonical s)
    (ht : BitSet.Canonical t) (hsub : s ⊆ t) (hne : s ≠ t) :
    s.length < t.length := by
  have hle := BitSet.length_le_of_subset hs hsub
  rcases Nat.lt_or_ge s.length t.length with h | h
  · exact h
  · exfalso
    apply hne
    have hperm :=
      (List.subperm_of_subset (BitSet.canonical_nodup hs) hsub).perm_of_length_le h
    exact @List.eq_of_perm_of_sorted ℕ (· < ·)
      ⟨fun a b h1 h2 => absurd h2 (Nat.lt_asymm h1)⟩ _ _ hperm hs ht

/-! ### Transfer-function and liveness-walk lemmas -/

theorem update_alive_eq_of_kind {i j : Inst} (h : i.kind = j.kind)
    (a : BitSet) : update_alive i a = update_alive j a := by
  unfold update_alive
  rw [h]

theorem update_alive_mono {i : Inst} {s t : BitSet} (h : s ⊆ t) :
    update_alive i s ⊆ update_alive i t := by
  unfold update_alive
  cases i.kind <;>
    first
      | exact h
      | exact BitSet.insert_mono h
      | exact BitSet.remove_mono h
      | exact BitSet.insert_mono (BitSet.remove_mono h)

theorem update_alive_mem {i : Inst} {s : BitSet} {x : ℕ}
    (h : x ∈ update_alive i s) : x ∈ s ∨ x ∈ uses_of i.kind := by
  obtain ⟨k, lo⟩ := i
  unfold update_alive at h
  unfold uses_of
  cases k <;> simp_all [BitSet.mem_insert, BitSet.mem_remove] <;> tauto

theorem update_alive_canonical {i : Inst} {s : BitSet}
    (h : BitSet.Canonical s) : BitSet.Canonical (update_alive i s) := by
  unfold update_alive
  cases i.kind <;>
    first
      | exact h
      | exact BitSet.insert_canonical h
      | exact BitSet.remove_canonical h
      | exact BitSet.insert_canonical (BitSet.remove_canonical h)

theorem transfer_chain_congr {l₁ l₂ : List Inst}
    (h : l₁.map Inst.kind = l₂.map Inst.kind) :
    ∀ a, transfer_chain l₁ a = transfer_chain l₂ a := by
  induction l₁ generalizing l₂ with
  | nil =>
    cases l₂ with
    | nil => intro a; rfl
    | cons j t => exact absurd h (by simp)
  | cons i t ih =>
    cases l₂ with
    | nil => exact absurd h (by simp)
    | cons j t' =>
      intro a
      simp only [List.map_cons, List.cons.injEq] at h
      show transfer_chain t (update_alive i a) = transfer_chain t' (update_alive j a)
      rw [update_alive_eq_of_kind h.1, ih h.2]

theorem transfer_chain_mono {l : List Inst} {s t : BitSet} (h : s ⊆ t) :
    transfer_chain l s ⊆ transfer_chain l t := by
  induction l generalizing s t with
  | nil => exact h
  | cons i rest ih => exact ih (update_alive_mono h)

theorem transfer_chain_mem {l : List Inst} {s : BitSet} {x : ℕ} :
    x ∈ transfer_chain l s → x ∈ s ∨ ∃ i ∈ l, x ∈ uses_of i.kind := by
  induction l generalizing s with
  | nil => exact Or.inl
  | cons i rest ih =>
    intro h
    rcases ih h with h2 | ⟨j, hj, hx⟩
    · rcases update_alive_mem h2 with h3 | h3
      · exact Or.inl h3
      · exact Or.inr ⟨i, List.mem_cons_self _ _, h3⟩
    · exact Or.inr ⟨j, List.mem_cons_of_mem _ hj, hx⟩

theorem transfer_chain_canonical {l : List Inst} {s : BitSet}
    (h : BitSet.Canonical s) : BitSet.Canonical (transfer_chain l s) := by
  induction l generalizing s with
  | nil => exact h
  | cons i rest ih => exact ih (update_alive_canonical h)

theorem mem_uses_list {ks : List InstKind} {x : ℕ} :
    x ∈ uses_list ks ↔ ∃ k ∈ ks, x ∈ uses_of k := by
  induction ks with
  | nil => simp [uses_list]
  | cons k rest ih =>
    show x ∈ (uses_of k).union_with (uses_list rest) ↔ _
    rw [BitSet.mem_union, ih]
    simp

theorem mem_live_univ {f : Function} {x : ℕ} :
    x ∈ live_univ f ↔ ∃ ks ∈ kinds_of f, x ∈ uses_list ks := by
  unfold live_univ
  induction kinds_of f with
  | nil => simp
  | cons ks rest ih =>
    show x ∈ (uses_list ks).union_with _ ↔ _
    rw [BitSet.mem_union, ih]
    simp

/-! ### List indexing helpers -/

theorem getD_set_self {α : Type} {l : List α} {n : ℕ}
    (h : n < l.length) (a d : α) :
    (l.set n a).getD n d = a := by
  simp [List.getD_eq_getElem?_getD, List.getElem?_set_self (by simpa using h)]

theorem getD_set_ne {α : Type} {l : List α} {n m : ℕ} (h : n ≠ m)
    (a d : α) : (l.set n a).getD m d = l.getD m d := by
  simp [List.getD_eq_getElem?_getD, List.getElem?_set_ne h]

theorem set_getD_self {α : Type} {l : List α} {n : ℕ}
    (h : n < l.length) (d : α) : l.set n (l.getD n d) = l := by
  apply List.ext_getElem?
  intro m
  by_cases hm : n = m
  · subst hm
    rw [List.getElem?_set_self (by simpa using h),
      List.getD_eq_getElem?_getD, List.getElem?_eq_getElem h]
    rfl
  · rw [List.getElem?_set_ne hm]

theorem BitSet.union_subset {s t u : BitSet} (hs : s ⊆ u) (ht : t ⊆ u) :
    s.union_with t ⊆ u := by
  intro x hx
  rcases BitSet.mem_union.mp hx with h | h
  · exact hs h
  · exact ht h

theorem BitSet.subset_union_left {s t : BitSet} : s ⊆ s.union_with t :=
  fun _ hx => BitSet.mem_union.mpr (Or.inl hx)

theorem kinds_of_getD (f : Function) (b : ℕ) :
    (kinds_of f).getD b [] = (f.body.getD b default).insts.map Inst.kind := by
  unfold kinds_of
  rw [List.getD_eq_getElem?_getD, List.getD_eq_getElem?_getD,
    List.getElem?_map]
  cases f.body[b]? with
  | none => rfl
  | some bb => rfl

theorem kinds_of_length (f : Function) :
    (kinds_of f).length = f.body.length := by
  simp [kinds_of]

theorem live_in_at_oob {f : Function} {b : ℕ} (h : f.body.length ≤ b) :
    live_in_at f b = none := by
  unfold live_in_at
  rw [List.getD_eq_getElem?_getD, List.getElem?_eq_none (by simpa using h)]
  rfl

/-! ### Lemmas about the tentative block live-out -/

theorem blotb_eq (f : Function) (bb : BasicBlock) :
    block_live_out_to_be f bb = blotb_spec f (bb.insts.getLast?.map Inst.kind) := by
  unfold block_live_out_to_be
  cases hl : bb.insts.getLast? with
  | none => rfl
  | some last =>
    obtain ⟨k, lo⟩ := last
    cases k with
    | Branch c t e =>
      dsimp only [blotb_spec, Option.map]
      cases he : (f.body.getD e default).live_in with
      | none => rfl
      | some s => rfl
    | Jump t => rfl
    | Return r => rfl
    | Copy a b => rfl
    | Drop a => rfl
    | Literal a v => rfl
    | Closure a b => rfl
    | Builtin a b => rfl
    | PushArg a => rfl
    | Call a b => rfl

theorem blotb_subset {f : Function} {bb : BasicBlock} {U : BitSet}
    (h : ∀ t, ((f.body.getD t default).live_in).getD [] ⊆ U) :
    block_live_out_to_be f bb ⊆ U := by
  rw [blotb_eq]
  cases bb.insts.getLast?.map Inst.kind with
  | none => intro x hx; exact absurd hx (List.not_mem_nil x)
  | some k =>
    cases k with
    | Jump t => exact h t
    | Branch c t e => exact BitSet.union_subset (h t) (h e)
    | Return r => intro x hx; exact absurd hx (List.not_mem_nil x)
    | Copy a b => intro x hx; exact absurd hx (List.not_mem_nil x)
    | Drop a => intro x hx; exact absurd hx (List.not_mem_nil x)
    | Literal a v => intro x hx; exact absurd hx (List.not_mem_nil x)
    | Closure a b => intro x hx; exact absurd hx (List.not_mem_nil x)
    | Builtin a b => intro x hx; exact absurd hx (List.not_mem_nil x)
    | PushArg a => intro x hx; exact absurd hx (List.not_mem_nil x)
    | Call a b => intro x hx; exact absurd hx (List.not_mem_nil x)

theorem blotb_canonical {f : Function} {bb : BasicBlock}
    (h : ∀ t, BitSet.Canonical (((f.body.getD t default).live_in).getD [])) :
    BitSet.Canonical (block_live_out_to_be f bb) := by
  rw [blotb_eq]
  cases bb.insts.getLast?.map Inst.kind with
  | none => exact BitSet.nil_canonical
  | some k =>
    cases k with
    | Jump t => exact h t
    | Branch c t e => exact BitSet.union_canonical (h t)
    | Return r => exact BitSet.nil_canonical
    | Copy a b => exact BitSet.nil_canonical
    | Drop a => exact BitSet.nil_canonical
    | Literal a v => exact BitSet.nil_canonical
    | Closure a b => exact BitSet.nil_canonical
    | Builtin a b => exact BitSet.nil_canonical
    | PushArg a => exact BitSet.nil_canonical
    | Call a b => exact BitSet.nil_canonical

theorem blotb_mono {f g : Function} {bbf bbg : BasicBlock}
    (hk : bbf.insts.map Inst.kind = bbg.insts.map Inst.kind)
    (hle : ∀ t, ((f.body.getD t default).live_in).getD [] ⊆
      ((g.body.getD t default).live_in).getD []) :
    block_live_out_to_be f bbf ⊆ block_live_out_to_be g bbg := by
  rw [blotb_eq, blotb_eq]
  have hlast : bbf.insts.getLast?.map Inst.kind =
      bbg.insts.getLast?.map Inst.kind := by
    rw [← List.getLast?_map, ← List.getLast?_map, hk]
  rw [← hlast]
  cases bbf.insts.getLast?.map Inst.kind with
  | none => intro x hx; exact absurd hx (List.not_mem_nil x)
  | some k =>
    cases k with
    | Jump t => exact hle t
    | Branch c t e => exact BitSet.union_mono (hle t) (hle e)
    | Return r => intro x hx; exact absurd hx (List.not_mem_nil x)
    | Copy a b => intro x hx; exact absurd hx (List.not_mem_nil x)
    | Drop a => intro x hx; exact absurd hx (List.not_mem_nil x)
    | Literal a v => intro x hx; exact absurd hx (List.not_mem_nil x)
    | Closure a b => intro x hx; exact absurd hx (List.not_mem_nil x)
    | Builtin a b => intro x hx; exact absurd hx (List.not_mem_nil x)
    | PushArg a => intro x hx; exact absurd hx (List.not_mem_nil x)
    | Call a b => intro x hx; exact absurd hx (List.not_mem_nil x)

/-! ### Lemmas about the backward walk of `liveness_bb` -/

theorem liveness_loop_kinds (l : List Inst) (a : BitSet) :
    ((liveness_loop l a).1).map Inst.kind = l.map Inst.kind := by
  induction l generalizing a with
  | nil => rfl
  | cons i rest ih =>
    rw [liveness_loop]
    by_cases h : i.live_out = some a
    · rw [if_pos h]
    · rw [if_neg h]
      simp only [List.map_cons]
      rw [ih]

theorem liveness_loop_some (l : List Inst) (a : BitSet) {a' : BitSet}
    (h : (liveness_loop l a).2 = some a') : a' = transfer_chain l a := by
  induction l generalizing a with
  | nil =>
    simp only [liveness_loop] at h
    cases h
    rfl
  | cons i rest ih =>
    rw [liveness_loop] at h
    by_cases hc : i.live_out = some a
    · rw [if_pos hc] at h; exact Option.noConfusion h
    · rw [if_neg hc] at h
      simp only at h
      have := ih _ h
      rw [this]
      show transfer_chain rest (update_alive ⟨i.kind, some a⟩ a) =
        transfer_chain rest (update_alive i a)
      rw [update_alive_eq_of_kind (i := (⟨i.kind, some a⟩ : Inst))
        (j := i) rfl]

theorem liveness_loop_head (i : Inst) (rest : List Inst) (a : BitSet) :
    ∃ hd tl, (liveness_loop (i :: rest) a).1 = hd :: tl ∧
      hd.live_out = some a ∧ hd.kind = i.kind := by
  rw [liveness_loop]
  by_cases h : i.live_out = some a
  · rw [if_pos h]
    exact ⟨i, rest, rfl, h, rfl⟩
  · rw [if_neg h]
    exact ⟨⟨i.kind, some a⟩, _, rfl, rfl, rfl⟩

/-! ### One `liveness_bb` call: case analysis and invariant preservation -/

theorem getD_mem {α : Type} {l : List α} {n : ℕ} (h : n < l.length)
    (d : α) : l.getD n d ∈ l := by
  rw [List.getD_eq_getElem?_getD, List.getElem?_eq_getElem h]
  exact List.getElem_mem h

theorem body_length_eq_of_kinds {f g : Function}
    (h : kinds_of f = kinds_of g) : f.body.length = g.body.length := by
  rw [← kinds_of_length f, ← kinds_of_length g, h]

theorem live_univ_congr {f g : Function} (h : kinds_of f = kinds_of g) :
    live_univ f = live_univ g := by
  unfold live_univ
  rw [h]

theorem live_measure_congr {f g : Function}
    (hlen : f.body.length = g.body.length)
    (hli : ∀ b, live_in_at f b = live_in_at g b) :
    live_measure f = live_measure g := by
  unfold live_measure
  rw [hlen]
  exact Finset.sum_congr rfl (fun b _ => by rw [hli b])

theorem kinds_of_set_block (f : Function) (b : ℕ) (bb' : BasicBlock) :
    kinds_of (set_block f b bb') =
      (kinds_of f).set b (bb'.insts.map Inst.kind) := by
  unfold kinds_of set_block
  simp [List.map_set]

theorem kinds_of_set_block_eq {f : Function} {bb_id : ℕ}
    {insts' : List Inst} {li : Option BitSet}
    (hk : insts'.map Inst.kind = (f.body.getD bb_id default).insts.map Inst.kind)
    (hb : bb_id < f.body.length) :
    kinds_of (set_block f bb_id ⟨insts', li⟩) = kinds_of f := by
  rw [kinds_of_set_block]
  dsimp only
  rw [hk, ← kinds_of_getD]
  exact set_getD_self (by rw [kinds_of_length]; exact hb) []

theorem live_in_at_set_block_self (f : Function) (bb' : BasicBlock)
    {b : ℕ} (hb : b < f.body.length) :
    live_in_at (set_block f b bb') b = bb'.live_in := by
  unfold live_in_at set_block
  dsimp only
  rw [getD_set_self hb]

theorem live_in_at_set_block_ne (f : Function) (bb' : BasicBlock)
    {b c : ℕ} (h : b ≠ c) :
    live_in_at (set_block f b bb') c = live_in_at f c := by
  unfold live_in_at set_block
  dsimp only
  rw [getD_set_ne h]

theorem blotb_spec_congr {f g : Function}
    (hli : ∀ b, live_in_at f b = live_in_at g b) :
    ∀ k, blotb_spec f k = blotb_spec g k := by
  intro k
  cases k with
  | none => rfl
  | some kk =>
    cases kk with
    | Jump t =>
      show (live_in_at f t).getD [] = (live_in_at g t).getD []
      rw [hli t]
    | Branch c t e =>
      show ((live_in_at f t).getD []).union_with ((live_in_at f e).getD []) =
        ((live_in_at g t).getD []).union_with ((live_in_at g e).getD [])
      rw [hli t, hli e]
    | Return r => rfl
    | Copy a b => rfl
    | Drop a => rfl
    | Literal a v => rfl
    | Closure a b => rfl
    | Builtin a b => rfl
    | PushArg a => rfl
    | Call a b => rfl

theorem blitb_mono {f g : Function} (hk : kinds_of f = kinds_of g)
    (hgrow : ∀ b, (live_in_at f b).getD [] ⊆ (live_in_at g b).getD [])
    (b : ℕ) : block_live_in_to_be f b ⊆ block_live_in_to_be g b := by
  have hkb : (f.body.getD b default).insts.map Inst.kind =
      (g.body.getD b default).insts.map Inst.kind := by
    rw [← kinds_of_getD, ← kinds_of_getD, hk]
  unfold block_live_in_to_be
  intro x hx
  have h1 : transfer_chain (f.body.getD b default).insts.reverse
      (block_live_out_to_be f (f.body.getD b default)) ⊆
      transfer_chain (f.body.getD b default).insts.reverse
      (block_live_out_to_be g (g.body.getD b default)) :=
    transfer_chain_mono (blotb_mono hkb (fun t => hgrow t))
  have h2 : transfer_chain (f.body.getD b default).insts.reverse
      (block_live_out_to_be g (g.body.getD b default)) =
      transfer_chain (g.body.getD b default).insts.reverse
      (block_live_out_to_be g (g.body.getD b default)) :=
    transfer_chain_congr
      (by rw [List.map_reverse, List.map_reverse, hkb]) _
  rw [← h2]
  exact h1 hx

theorem blitb_congr {f g : Function} (hk : kinds_of f = kinds_of g)
    (hli : ∀ b, live_in_at f b = live_in_at g b) (b : ℕ) :
    block_live_in_to_be f b = block_live_in_to_be g b := by
  have hkb : (f.body.getD b default).insts.map Inst.kind =
      (g.body.getD b default).insts.map Inst.kind := by
    rw [← kinds_of_getD, ← kinds_of_getD, hk]
  have hblotb : block_live_out_to_be f (f.body.getD b default) =
      block_live_out_to_be g (g.body.getD b default) := by
    rw [blotb_eq, blotb_eq]
    have hlast : (f.body.getD b default).insts.getLast?.map Inst.kind =
        (g.body.getD b default).insts.getLast?.map Inst.kind := by
      rw [← List.getLast?_map, ← List.getLast?_map, hkb]
    rw [hlast]
    exact blotb_spec_congr hli _
  unfold block_live_in_to_be
  rw [hblotb]
  exact transfer_chain_congr
    (by rw [List.map_reverse, List.map_reverse, hkb]) _

theorem live_inv_congr {f g : Function} (hk : kinds_of f = kinds_of g)
    (hli : ∀ b, live_in_at f b = live_in_at g b) (h : live_inv f) :
    live_inv g := by
  intro b hb
  have hlen : f.body.length = g.body.length := body_length_eq_of_kinds hk
  have hb' : b < f.body.length := by rw [hlen]; exact hb
  obtain ⟨h1, h2, h3⟩ := h b hb'
  refine ⟨?_, ?_, ?_⟩
  · rw [← hli b, ← blitb_congr hk hli b]
    exact h1
  · rw [← hli b, ← live_univ_congr hk]
    exact h2
  · rw [← hli b]
    exact h3

theorem blitb_subset_univ {f : Function}
    (hs : ∀ b, (live_in_at f b).getD [] ⊆ live_univ f) {b : ℕ}
    (hb : b < f.body.length) :
    block_live_in_to_be f b ⊆ live_univ f := by
  intro x hx
  unfold block_live_in_to_be at hx
  rcases transfer_chain_mem hx with hx | ⟨i, hi, hxk⟩
  · exact blotb_subset (fun t => hs t) hx
  · have hbbmem : f.body.getD b default ∈ f.body := getD_mem hb default
    have hu : x ∈ uses_list ((f.body.getD b default).insts.map Inst.kind) :=
      mem_uses_list.mpr
        ⟨i.kind, List.mem_map_of_mem _ (List.mem_reverse.mp hi), hxk⟩
    exact mem_live_univ.mpr ⟨(f.body.getD b default).insts.map Inst.kind,
      List.mem_map_of_mem _ hbbmem, hu⟩

theorem liveness_bb_cases (f : Function) (bb_id : ℕ) (u : Bool) :
    ∃ insts' : List Inst,
      insts'.map Inst.kind = (f.body.getD bb_id default).insts.map Inst.kind ∧
      (liveness_bb f bb_id u =
          (set_block f bb_id ⟨insts', (f.body.getD bb_id default).live_in⟩, u) ∨
        (liveness_bb f bb_id u =
            (set_block f bb_id ⟨insts', some (block_live_in_to_be f bb_id)⟩,
              true) ∧
          (f.body.getD bb_id default).live_in ≠
            some (block_live_in_to_be f bb_id))) := by
  refine ⟨(liveness_loop (f.body.getD bb_id default).insts.reverse
    (block_live_out_to_be f (f.body.getD bb_id default))).1.reverse, ?_, ?_⟩
  · rw [List.map_reverse, liveness_loop_kinds, List.map_reverse,
      List.reverse_reverse]
  · cases hp : (liveness_loop (f.body.getD bb_id default).insts.reverse
      (block_live_out_to_be f (f.body.getD bb_id default))).2 with
    | none =>
      left
      unfold liveness_bb
      dsimp only
      rw [hp]
    | some alive' =>
      have halive : alive' = block_live_in_to_be f bb_id :=
        liveness_loop_some _ _ hp
      by_cases hli : (f.body.getD bb_id default).live_in = some alive'
      · left
        unfold liveness_bb
        dsimp only
        rw [hp]
        dsimp only
        rw [if_pos hli]
      · right
        constructor
        · unfold liveness_bb
          dsimp only
          rw [hp]
          dsimp only
          rw [if_neg hli, halive]
        · rw [← halive]
          exact hli

theorem liveness_bb_inv {f : Function} (hinv : live_inv f) {bb_id : ℕ}
    (hb : bb_id < f.body.length) (u : Bool) :
    kinds_of (liveness_bb f bb_id u).1 = kinds_of f ∧
    live_inv (liveness_bb f bb_id u).1 ∧
    (∀ b, (live_in_at f b).getD [] ⊆
      (live_in_at (liveness_bb f bb_id u).1 b).getD []) ∧
    live_measure f ≤ live_measure (liveness_bb f bb_id u).1 ∧
    ((liveness_bb f bb_id u).2 = true →
      u = true ∨ live_measure f < live_measure (liveness_bb f bb_id u).1) := by
  obtain ⟨insts', hk, hcase | ⟨heq, hne⟩⟩ := liveness_bb_cases f bb_id u
  · rw [hcase]
    dsimp only
    have hkg : kinds_of (set_block f bb_id
        ⟨insts', (f.body.getD bb_id default).live_in⟩) = kinds_of f :=
      kinds_of_set_block_eq hk hb
    have hli1 : ∀ b, live_in_at (set_block f bb_id
        ⟨insts', (f.body.getD bb_id default).live_in⟩) b = live_in_at f b := by
      intro b
      by_cases hbb : bb_id = b
      · subst hbb
        rw [live_in_at_set_block_self f _ hb]
        rfl
      · exact live_in_at_set_block_ne f _ hbb
    refine ⟨hkg, live_inv_congr hkg.symm (fun b => (hli1 b).symm) hinv,
      ?_, ?_, ?_⟩
    · intro b
      rw [hli1 b]
      exact fun _ hx => hx
    · exact le_of_eq (live_measure_congr
        (body_length_eq_of_kinds hkg).symm (fun b => (hli1 b).symm))
    · intro h
      exact Or.inl h
  · rw [heq]
    dsimp only
    set gfun := set_block f bb_id
      ⟨insts', some (block_live_in_to_be f bb_id)⟩ with hgdef
    have hkg : kinds_of gfun = kinds_of f := by
      rw [hgdef]
      exact kinds_of_set_block_eq hk hb
    have hlen : gfun.body.length = f.body.length :=
      body_length_eq_of_kinds hkg
    have huniv : live_univ gfun = live_univ f := live_univ_congr hkg
    have hself : live_in_at gfun bb_id =
        some (block_live_in_to_be f bb_id) := by
      rw [hgdef]
      exact live_in_at_set_block_self f _ hb
    have hother : ∀ b, bb_id ≠ b → live_in_at gfun b = live_in_at f b := by
      intro b hbb
      rw [hgdef]
      exact live_in_at_set_block_ne f _ hbb
    have hstored_univ : ∀ b, (live_in_at f b).getD [] ⊆ live_univ f := by
      intro b
      by_cases hbl : b < f.body.length
      · exact (hinv b hbl).2.1
      · intro x hx
        rw [live_in_at_oob (Nat.le_of_not_lt hbl)] at hx
        exact absurd hx (List.not_mem_nil x)
    have hstored_can : ∀ b, BitSet.Canonical ((live_in_at f b).getD []) := by
      intro b
      by_cases hbl : b < f.body.length
      · exact (hinv b hbl).2.2
      · rw [live_in_at_oob (Nat.le_of_not_lt hbl)]
        exact BitSet.nil_canonical
    have hblitb_univ : block_live_in_to_be f bb_id ⊆ live_univ f :=
      blitb_subset_univ hstored_univ hb
    have hblitb_can : BitSet.Canonical (block_live_in_to_be f bb_id) :=
      transfer_chain_canonical (blotb_canonical (fun t => hstored_can t))
    have hgrow : ∀ b, (live_in_at f b).getD [] ⊆
        (live_in_at gfun b).getD [] := by
      intro b
      by_cases hbb : bb_id = b
      · subst hbb
        rw [hself]
        exact (hinv bb_id hb).1
      · rw [hother b hbb]
        exact fun _ hx => hx
    have hmono : ∀ b, block_live_in_to_be f b ⊆ block_live_in_to_be gfun b :=
      fun b => blitb_mono hkg.symm hgrow b
    have hinv' : live_inv gfun := by
      intro b hbl
      have hbl' : b < f.body.length := by rw [← hlen]; exact hbl
      by_cases hbb : bb_id = b
      · subst hbb
        rw [hself]
        refine ⟨hmono bb_id, ?_, hblitb_can⟩
        rw [huniv]
        exact hblitb_univ
      · rw [hother b hbb]
        obtain ⟨h1, h2, h3⟩ := hinv b hbl'
        refine ⟨h1.trans (hmono b), ?_, h3⟩
        rw [huniv]
        exact h2
    have hmeas : live_measure f < live_measure gfun := by
      unfold live_measure
      rw [hlen]
      apply Finset.sum_lt_sum
      · intro i _
        by_cases hbb : bb_id = i
        · subst hbb
          rw [hself]
          cases hsf : live_in_at f bb_id with
          | none => exact Nat.zero_le _
          | some s =>
            have h1 := (hinv bb_id hb).1
            have h3 := (hinv bb_id hb).2.2
            rw [hsf] at h1 h3
            exact Nat.succ_le_succ (BitSet.length_le_of_subset h3 h1)
        · rw [hother i hbb]
      · refine ⟨bb_id, Finset.mem_range.mpr hb, ?_⟩
        rw [hself]
        cases hsf : live_in_at f bb_id with
        | none => exact Nat.succ_pos _
        | some s =>
          have h1 := (hinv bb_id hb).1
          have h3 := (hinv bb_id hb).2.2
          rw [hsf] at h1 h3
          have hsne : s ≠ block_live_in_to_be f bb_id := by
            intro hcon
            apply hne
            rw [← hcon]
            exact hsf
          exact Nat.succ_lt_succ
            (BitSet.length_lt_of_ssubset h3 hblitb_can h1 hsne)
    exact ⟨hkg, hinv', hgrow, Nat.le_of_lt hmeas, fun _ => Or.inr hmeas⟩

/-! ### One sweep of `liveness` -/

theorem liveness_fold_inv (L : List ℕ) :
    ∀ (f : Function) (u : Bool), (∀ b ∈ L, b < f.body.length) → live_inv f →
    kinds_of (L.foldl (fun p bb_id => liveness_bb p.1 bb_id p.2) (f, u)).1 =
      kinds_of f ∧
    live_inv (L.foldl (fun p bb_id => liveness_bb p.1 bb_id p.2) (f, u)).1 ∧
    live_measure f ≤
      live_measure (L.foldl (fun p bb_id => liveness_bb p.1 bb_id p.2)
        (f, u)).1 ∧
    ((L.foldl (fun p bb_id => liveness_bb p.1 bb_id p.2) (f, u)).2 = true →
      u = true ∨ live_measure f <
        live_measure (L.foldl (fun p bb_id => liveness_bb p.1 bb_id p.2)
          (f, u)).1) := by
  induction L with
  | nil =>
    intro f u _ hinv
    exact ⟨rfl, hinv, Nat.le_refl _, fun h => Or.inl h⟩
  | cons b L ih =>
    intro f u hmem hinv
    simp only [List.foldl_cons]
    obtain ⟨hk1, hinv1, -, hm1, hflag1⟩ :=
      liveness_bb_inv hinv (hmem b (List.mem_cons_self b L)) u
    have hlen1 : (liveness_bb f b u).1.body.length = f.body.length :=
      body_length_eq_of_kinds hk1
    have hmem1 : ∀ c ∈ L, c < (liveness_bb f b u).1.body.length := by
      intro c hc
      rw [hlen1]
      exact hmem c (List.mem_cons_of_mem b hc)
    obtain ⟨hk2, hinv2, hm2, hflag2⟩ :=
      ih (liveness_bb f b u).1 (liveness_bb f b u).2 hmem1 hinv1
    refine ⟨hk2.trans hk1, hinv2, le_trans hm1 hm2, ?_⟩
    intro hq
    rcases hflag2 hq with h1 | h2
    · rcases hflag1 h1 with h | h
      · exact Or.inl h
      · exact Or.inr (lt_of_lt_of_le h hm2)
    · exact Or.inr (lt_of_le_of_lt hm1 h2)

theorem liveness_step_inv {f : Function} (hinv : live_inv f) :
    kinds_of (liveness_step f).1 = kinds_of f ∧
    live_inv (liveness_step f).1 ∧
    live_measure f ≤ live_measure (liveness_step f).1 ∧
    ((liveness_step f).2 = true →
      live_measure f < live_measure (liveness_step f).1) := by
  obtain ⟨h1, h2, h3, h4⟩ := liveness_fold_inv (List.range f.body.length)
    f false (fun b hb => List.mem_range.mp hb) hinv
  refine ⟨h1, h2, h3, fun h => ?_⟩
  rcases h4 h with h | h
  · exact Bool.noConfusion h
  · exact h

/-! ### The measure is bounded, so the `while` loop terminates -/

theorem live_measure_le_bound {f : Function} (hinv : live_inv f) :
    live_measure f ≤ f.body.length * ((live_univ f).length + 1) := by
  unfold live_measure
  have hper : ∀ b ∈ Finset.range f.body.length,
      measure_opt (live_in_at f b) ≤ (live_univ f).length + 1 := by
    intro b hb
    have hb' : b < f.body.length := Finset.mem_range.mp hb
    obtain ⟨-, h2, h3⟩ := hinv b hb'
    cases hli : live_in_at f b with
    | none => exact Nat.zero_le _
    | some s =>
      rw [hli] at h2 h3
      exact Nat.succ_le_succ (BitSet.length_le_of_subset h3 h2)
  calc ∑ b ∈ Finset.range f.body.length, measure_opt (live_in_at f b)
      ≤ ∑ _b ∈ Finset.range f.body.length, ((live_univ f).length + 1) :=
        Finset.sum_le_sum hper
    _ = f.body.length * ((live_univ f).length + 1) := by
        rw [Finset.sum_const, Finset.card_range, smul_eq_mul]

theorem liveness_terminates_aux (k : ℕ) : ∀ f : Function, live_inv f →
    f.body.length * ((live_univ f).length + 1) ≤ live_measure f + k →
    ∃ n, (liveness_step (step_iter n f)).2 = false := by
  induction k with
  | zero =>
    intro f hinv hbound
    cases hflag : (liveness_step f).2 with
    | false => exact ⟨0, hflag⟩
    | true =>
      exfalso
      obtain ⟨h1, h2, -, h4⟩ := liveness_step_inv hinv
      have hlt := h4 hflag
      have hb2 : live_measure (liveness_step f).1 ≤
          f.body.length * ((live_univ f).length + 1) := by
        have hle := live_measure_le_bound h2
        rwa [body_length_eq_of_kinds h1, live_univ_congr h1] at hle
      omega
  | succ k ih =>
    intro f hinv hbound
    cases hflag : (liveness_step f).2 with
    | false => exact ⟨0, hflag⟩
    | true =>
      obtain ⟨h1, h2, -, h4⟩ := liveness_step_inv hinv
      have hlt := h4 hflag
      have hbound' : (liveness_step f).1.body.length *
          ((live_univ (liveness_step f).1).length + 1) ≤
          live_measure (liveness_step f).1 + k := by
        rw [body_length_eq_of_kinds h1, live_univ_congr h1]
        omega
      obtain ⟨n, hn⟩ := ih (liveness_step f).1 h2 hbound'
      exact ⟨n + 1, hn⟩

/-- C5: on the inputs the compilation pipeline actually hands to the pass —
functions whose `live_in` and `live_out` annotations are all unset, as
`lower` produces them — the `while updated` loop of `liveness` terminates:
some number of sweeps reports no change. (On adversarially pre-annotated
input the loop can diverge, see the counterexample.) -/
theorem c5_liveness_terminates_on_unannotated (f : Function)
    (h : unannotated f) :
    ∃ n, (liveness_step (step_iter n f)).2 = false := by
  apply liveness_terminates_aux
    (f.body.length * ((live_univ f).length + 1)) f
  · intro b hb
    have hn : live_in_at f b = none := by
      unfold live_in_at
      exact (h _ (getD_mem hb default)).1
    rw [hn]
    exact ⟨fun _ hx => absurd hx (List.not_mem_nil _),
      fun _ hx => absurd hx (List.not_mem_nil _), BitSet.nil_canonical⟩
  · exact Nat.le_add_left _ _

theorem c5_liveness_terminates_on_unannotated_witness :
    unannotated Examples.c5_term_fn ∧
    ∃ n, (liveness_step (step_iter n Examples.c5_term_fn)).2 = false :=
  ⟨fun bb hbb => by
      rcases List.mem_singleton.mp hbb with rfl
      exact ⟨rfl, fun i hi => by
        rcases List.mem_singleton.mp hi with rfl
        rfl⟩,
    c5_liveness_terminates_on_unannotated Examples.c5_term_fn
      (fun bb hbb => by
        rcases List.mem_singleton.mp hbb with rfl
        exact ⟨rfl, fun i hi => by
          rcases List.mem_singleton.mp hi with rfl
          rfl⟩)⟩

/-! ### C4: the `While` lowering -/

open AstLowering in
/-- C4 counterexample: lowering `while (1) { 2 }` from a fresh one-block
function with caller result slot 0. The condition is lowered into the
caller's slot 0 — the `Branch` in the condition block tests slot 0, not a
fresh variable — and the continuation block (block 3) stays empty: no
`Literal(Unit)` is emitted into the result slot. -/
theorem c4_while_lowering_counterexample :
    lower_expr c4_bmap c4_vmap
        (.While (.IntegerLiteral 1) (.IntegerLiteral 2)) c4_fin 0 0 =
      some (⟨0, 1, [⟨[.Jump 1]⟩,
        ⟨[.Literal 0 (.Integer 1), .Branch 0 2 3]⟩,
        ⟨[.Literal 0 (.Integer 2), .Jump 1]⟩, ⟨[]⟩]⟩, 3) := by
  simp [lower_expr, push_inst, push_block, c4_fin]

namespace AstLowering

theorem push_inst_length (f : LFunction) (i : ℕ) (k : LInstKind) :
    (push_inst f i k).body.length = f.body.length := by
  simp [push_inst]

theorem push_block_length (f : LFunction) :
    (push_block f).body.length = f.body.length + 1 := by
  simp [push_block]

theorem push_args_length (c : ℕ) (vs : List ℕ) :
    ∀ g : LFunction,
      ((vs.foldl (fun fa v => push_inst fa c (.PushArg v)) g)).body.length =
        g.body.length := by
  induction vs with
  | nil => intro g; rfl
  | cons v rest ih =>
    intro g
    rw [List.foldl_cons, ih, push_inst_length]

theorem push_inst_getD_ne {i j : ℕ} (hne : i ≠ j) (g : LFunction)
    (k : LInstKind) :
    (push_inst g i k).body.getD j default = g.body.getD j default := by
  unfold push_inst
  dsimp only
  rw [getD_set_ne hne]

theorem push_block_getD_last (g : LFunction) :
    (push_block g).body.getD g.body.length default = ⟨[]⟩ := by
  unfold push_block
  dsimp only
  rw [List.getD_eq_getElem?_getD, List.getElem?_append_right (Nat.le_refl _)]
  simp

/-! Body-length monotonicity of the lowering: every lowering function only
pushes blocks and instructions, so a successful run never shrinks the
block list. Mutual induction mirroring the definitions. -/

mutual

theorem lower_stmts_length {b : BuiltinMap} {m : VarMap} (stmts : List AStmt)
    {f : LFunction} {bb_id result_var : ℕ} {p : LFunction × ℕ}
    (h : lower_stmts b m stmts f bb_id result_var = some p) :
    f.body.length ≤ p.1.body.length := by
  cases stmts with
  | nil =>
    simp only [lower_stmts] at h
    obtain rfl := Option.some.inj h
    exact Nat.le_refl _
  | cons stmt rest =>
    cases rest with
    | nil =>
      simp only [lower_stmts] at h
      exact lower_stmt_length stmt h
    | cons s2 rest2 =>
      simp only [lower_stmts] at h
      cases h1 : lower_stmt b m stmt f bb_id none with
      | none => rw [h1] at h; exact Option.noConfusion h
      | some q =>
        rw [h1] at h
        simp only [Option.bind_eq_bind, Option.some_bind] at h
        exact Nat.le_trans (lower_stmt_length stmt h1)
          (lower_stmts_length (s2 :: rest2) h)
termination_by (sizeOf stmts, 0)

theorem lower_stmt_length {b : BuiltinMap} {m : VarMap} (stmt : AStmt)
    {f : LFunction} {bb_id : ℕ} {result_var : Option ℕ} {p : LFunction × ℕ}
    (h : lower_stmt b m stmt f bb_id result_var = some p) :
    f.body.length ≤ p.1.body.length := by
  cases stmt with
  | Let name id init =>
    simp only [lower_stmt] at h
    cases h1 : lower_expr b m init f bb_id (m id) with
    | none => rw [h1] at h; exact Option.noConfusion h
    | some q =>
      rw [h1] at h
      simp only [Option.bind_eq_bind, Option.some_bind] at h
      cases result_var with
      | some r =>
        obtain rfl := Option.some.inj h
        exact Nat.le_trans (lower_expr_length init h1)
          (Nat.le_of_eq (push_inst_length _ _ _).symm)
      | none =>
        obtain rfl := Option.some.inj h
        exact lower_expr_length init h1
  | Expr e use_value =>
    cases use_value with
    | true =>
      cases result_var with
      | none =>
        simp only [lower_stmt] at h
        exact Option.noConfusion h
      | some r =>
        simp only [lower_stmt] at h
        exact lower_expr_length e h
    | false =>
      simp only [lower_stmt] at h
      cases h1 : lower_expr b m e { f with num_vars := f.num_vars + 1 }
          bb_id f.num_vars with
      | none => rw [h1] at h; exact Option.noConfusion h
      | some q =>
        rw [h1] at h
        simp only [Option.bind_eq_bind, Option.some_bind] at h
        have hq := lower_expr_length e h1
        cases result_var with
        | some r =>
          obtain rfl := Option.some.inj h
          exact Nat.le_trans hq (Nat.le_of_eq (push_inst_length _ _ _).symm)
        | none =>
          obtain rfl := Option.some.inj h
          exact hq
termination_by (sizeOf stmt, 0)

theorem lower_expr_length {b : BuiltinMap} {m : VarMap} (e : AExpr)
    {f : LFunction} {bb_id result_var : ℕ} {p : LFunction × ℕ}
    (h : lower_expr b m e f bb_id result_var = some p) :
    f.body.length ≤ p.1.body.length := by
  cases e with
  | Var name id =>
    simp only [lower_expr] at h
    obtain rfl := Option.some.inj h
    exact Nat.le_of_eq (push_inst_length _ _ _).symm
  | Branch cond then_ else_ =>
    simp only [lower_expr] at h
    cases h1 : lower_expr2 b m cond f bb_id with
    | none => rw [h1] at h; exact Option.noConfusion h
    | some pc =>
      rw [h1] at h
      simp only [Option.bind_eq_bind, Option.some_bind] at h
      cases h2 : lower_expr b m then_ (push_block pc.1) pc.1.body.length
          result_var with
      | none => rw [h2] at h; exact Option.noConfusion h
      | some pt =>
        rw [h2] at h
        simp only [Option.bind_eq_bind, Option.some_bind] at h
        cases h3 : lower_expr b m else_ (push_block pt.1) pt.1.body.length
            result_var with
        | none => rw [h3] at h; exact Option.noConfusion h
        | some pe =>
          rw [h3] at h
          simp only [Option.bind_eq_bind, Option.some_bind] at h
          obtain rfl := Option.some.inj h
          have hc : f.body.length ≤ pc.1.body.length :=
            lower_expr2_length cond h1
          have ht : (push_block pc.1).body.length ≤ pt.1.body.length :=
            lower_expr_length then_ h2
          have he : (push_block pt.1).body.length ≤ pe.1.body.length :=
            lower_expr_length else_ h3
          rw [push_block_length] at ht he
          simp only [push_inst_length, push_block_length]
          omega
  | While cond body =>
    simp only [lower_expr] at h
    cases h1 : lower_expr b m cond (push_block f) f.body.length result_var with
    | none => rw [h1] at h; exact Option.noConfusion h
    | some pc =>
      rw [h1] at h
      simp only [Option.bind_eq_bind, Option.some_bind] at h
      cases h2 : lower_expr b m body (push_block pc.1) pc.1.body.length
          result_var with
      | none => rw [h2] at h; exact Option.noConfusion h
      | some pb =>
        rw [h2] at h
        simp only [Option.bind_eq_bind, Option.some_bind] at h
        obtain rfl := Option.some.inj h
        have hc : (push_block f).body.length ≤ pc.1.body.length :=
          lower_expr_length cond h1
        have hb : (push_block pc.1).body.length ≤ pb.1.body.length :=
          lower_expr_length body h2
        rw [push_block_length] at hc hb
        simp only [push_inst_length, push_block_length]
        omega
  | Block stmts =>
    simp only [lower_expr] at h
    exact lower_stmts_length stmts h
  | Assign name id rhs =>
    simp only [lower_expr] at h
    cases h1 : lower_expr b m rhs f bb_id (m id) with
    | none => rw [h1] at h; exact Option.noConfusion h
    | some q =>
      rw [h1] at h
      simp only [Option.bind_eq_bind, Option.some_bind] at h
      obtain rfl := Option.some.inj h
      exact Nat.le_trans (lower_expr_length rhs h1)
        (Nat.le_of_eq (push_inst_length _ _ _).symm)
  | Call callee args =>
    cases callee with
    | Var cname cid =>
      simp only [lower_expr] at h
      cases hbi : b cid with
      | none => rw [hbi] at h; exact Option.noConfusion h
      | some bk =>
        rw [hbi] at h
        cases h1 : lower_expr_list b m args f bb_id with
        | none => rw [h1] at h; exact Option.noConfusion h
        | some pa =>
          rw [h1] at h
          simp only [Option.bind_eq_bind, Option.some_bind] at h
          obtain rfl := Option.some.inj h
          have := lower_expr_list_length args h1
          simp only [push_inst_length, push_args_length]
          exact this
    | Branch c t el => simp only [lower_expr] at h; exact Option.noConfusion h
    | While c bo => simp only [lower_expr] at h; exact Option.noConfusion h
    | Block st => simp only [lower_expr] at h; exact Option.noConfusion h
    | Assign n i r => simp only [lower_expr] at h; exact Option.noConfusion h
    | Call c a => simp only [lower_expr] at h; exact Option.noConfusion h
    | IntegerLiteral v =>
      simp only [lower_expr] at h; exact Option.noConfusion h
    | BinOp o l r => simp only [lower_expr] at h; exact Option.noConfusion h
  | IntegerLiteral v =>
    simp only [lower_expr] at h
    obtain rfl := Option.some.inj h
    exact Nat.le_of_eq (push_inst_length _ _ _).symm
  | BinOp op lhs rhs =>
    simp only [lower_expr] at h
    cases h1 : lower_expr2 b m lhs f bb_id with
    | none => rw [h1] at h; exact Option.noConfusion h
    | some pl =>
      rw [h1] at h
      simp only [Option.bind_eq_bind, Option.some_bind] at h
      cases h2 : lower_expr2 b m rhs pl.1 pl.2.1 with
      | none => rw [h2] at h; exact Option.noConfusion h
      | some pr =>
        rw [h2] at h
        simp only [Option.bind_eq_bind, Option.some_bind] at h
        obtain rfl := Option.some.inj h
        have hl : f.body.length ≤ pl.1.body.length :=
          lower_expr2_length lhs h1
        have hr : pl.1.body.length ≤ pr.1.body.length :=
          lower_expr2_length rhs h2
        simp only [push_inst_length]
        omega
termination_by (sizeOf e, 0)

theorem lower_expr2_length {b : BuiltinMap} {m : VarMap} (e : AExpr)
    {f : LFunction} {bb_id : ℕ} {p : LFunction × ℕ × ℕ}
    (h : lower_expr2 b m e f bb_id = some p) :
    f.body.length ≤ p.1.body.length := by
  simp only [lower_expr2] at h
  cases h1 : lower_expr b m e { f with num_vars := f.num_vars + 1 }
      bb_id f.num_vars with
  | none => rw [h1] at h; exact Option.noConfusion h
  | some q =>
    rw [h1] at h
    simp only [Option.bind_eq_bind, Option.some_bind] at h
    obtain rfl := Option.some.inj h
    have hq := lower_expr_length e h1
    exact hq
termination_by (sizeOf e, 1)

theorem lower_expr_list_length {b : BuiltinMap} {m : VarMap}
    (args : List AExpr) {f : LFunction} {bb_id : ℕ}
    {p : LFunction × ℕ × List ℕ}
    (h : lower_expr_list b m args f bb_id = some p) :
    f.body.length ≤ p.1.body.length := by
  cases args with
  | nil =>
    simp only [lower_expr_list] at h
    obtain rfl := Option.some.inj h
    exact Nat.le_refl _
  | cons a rest =>
    simp only [lower_expr_list] at h
    cases h1 : lower_expr2 b m a f bb_id with
    | none => rw [h1] at h; exact Option.noConfusion h
    | some q =>
      rw [h1] at h
      simp only [Option.bind_eq_bind, Option.some_bind] at h
      cases h2 : lower_expr_list b m rest q.1 q.2.1 with
      | none => rw [h2] at h; exact Option.noConfusion h
      | some q2 =>
        rw [h2] at h
        simp only [Option.bind_eq_bind, Option.some_bind] at h
        obtain rfl := Option.some.inj h
        have hq := lower_expr2_length a h1
        have hq2 := lower_expr_list_length rest h2
        exact Nat.le_trans hq hq2
termination_by (sizeOf args, 0)

end

end AstLowering

open AstLowering in
/-- C4 amended: for every builtin map, variable map, condition, body,
input function, current block `bb_id` (a block of the function) and
caller-supplied result slot, a successful `While` lowering works as
follows: it opens `cond_bb` (the next block index) and lowers the
condition into the caller's result slot itself — no fresh condition
variable is allocated —, opens `body_bb` and lowers the body into the
result slot, opens `cont_bb`, then terminates the previous block with
`Jump cond_bb`, `cond_bb` with `Branch(result_var, body_bb, cont_bb)` and
`body_bb` with `Jump cond_bb`; the continuation block is the last block
and it is empty — nothing, in particular no `Literal(Unit)`, is emitted
into it. -/
theorem c4_while_lowering_amended (b : BuiltinMap) (m : VarMap)
    (cond body : AExpr) (f : LFunction) {bb_id result_var : ℕ}
    (hbb : bb_id < f.body.length) {q : LFunction × ℕ}
    (h : lower_expr b m (.While cond body) f bb_id result_var = some q) :
    ∃ pc pb : LFunction × ℕ,
      lower_expr b m cond (push_block f) f.body.length result_var = some pc ∧
      lower_expr b m body (push_block pc.1) pc.1.body.length result_var =
        some pb ∧
      q.2 = pb.1.body.length ∧
      q.1 = push_inst (push_inst (push_inst (push_block pb.1)
          bb_id (.Jump f.body.length))
          f.body.length
          (.Branch result_var pc.1.body.length pb.1.body.length))
          pc.1.body.length (.Jump f.body.length) ∧
      q.1.body.length = q.2 + 1 ∧
      q.1.body.getD q.2 default = ⟨[]⟩ := by
  simp only [lower_expr] at h
  cases h1 : lower_expr b m cond (push_block f) f.body.length result_var with
  | none => rw [h1] at h; exact Option.noConfusion h
  | some pc =>
    rw [h1] at h
    simp only [Option.bind_eq_bind, Option.some_bind] at h
    cases h2 : lower_expr b m body (push_block pc.1) pc.1.body.length
        result_var with
    | none => rw [h2] at h; exact Option.noConfusion h
    | some pb =>
      rw [h2] at h
      simp only [Option.bind_eq_bind, Option.some_bind] at h
      obtain rfl := (Option.some.inj h).symm
      refine ⟨pc, pb, rfl, h2, rfl, rfl, ?_, ?_⟩
      · simp only [push_inst_length, push_block_length]
      · have hc : (push_block f).body.length ≤ pc.1.body.length :=
          lower_expr_length cond h1
        have hb : (push_block pc.1).body.length ≤ pb.1.body.length :=
          lower_expr_length body h2
        rw [push_block_length] at hc hb
        rw [push_inst_getD_ne
            (show pc.1.body.length ≠ pb.1.body.length by omega),
          push_inst_getD_ne
            (show f.body.length ≠ pb.1.body.length by omega),
          push_inst_getD_ne (show bb_id ≠ pb.1.body.length by omega)]
        exact push_block_getD_last pb.1

open AstLowering in
/-- C4 witness: the amended theorem applied to `while (1) { 2 }` lowered
from a one-empty-block function at block 0 into slot 0. -/
theorem c4_while_lowering_amended_witness :
    (0 < c4_fin.body.length) ∧
    (lower_expr c4_bmap c4_vmap
        (.While (.IntegerLiteral 1) (.IntegerLiteral 2)) c4_fin 0 0 =
      some (⟨0, 1, [⟨[.Jump 1]⟩,
        ⟨[.Literal 0 (.Integer 1), .Branch 0 2 3]⟩,
        ⟨[.Literal 0 (.Integer 2), .Jump 1]⟩, ⟨[]⟩]⟩, 3)) ∧
    ∃ pc pb : LFunction × ℕ,
      lower_expr c4_bmap c4_vmap (.IntegerLiteral 1) (push_block c4_fin)
        c4_fin.body.length 0 = some pc ∧
      lower_expr c4_bmap c4_vmap (.IntegerLiteral 2) (push_block pc.1)
        pc.1.body.length 0 = some pb ∧
      (3 : ℕ) = pb.1.body.length ∧
      (⟨0, 1, [⟨[.Jump 1]⟩,
        ⟨[.Literal 0 (.Integer 1), .Branch 0 2 3]⟩,
        ⟨[.Literal 0 (.Integer 2), .Jump 1]⟩, ⟨[]⟩]⟩ : LFunction) =
        push_inst (push_inst (push_inst (push_block pb.1)
          0 (.Jump c4_fin.body.length))
          c4_fin.body.length
          (.Branch 0 pc.1.body.length pb.1.body.length))
          pc.1.body.length (.Jump c4_fin.body.length) ∧
      (⟨0, 1, [⟨[.Jump 1]⟩,
        ⟨[.Literal 0 (.Integer 1), .Branch 0 2 3]⟩,
        ⟨[.Literal 0 (.Integer 2), .Jump 1]⟩, ⟨[]⟩]⟩ :
          LFunction).body.length = 3 + 1 ∧
      (⟨0, 1, [⟨[.Jump 1]⟩,
        ⟨[.Literal 0 (.Integer 1), .Branch 0 2 3]⟩,
        ⟨[.Literal 0 (.Integer 2), .Jump 1]⟩, ⟨[]⟩]⟩ :
          LFunction).body.getD 3 default = ⟨[]⟩ :=
  ⟨by decide, by simp [lower_expr, push_inst, push_block, c4_fin],
    c4_while_lowering_amended c4_bmap c4_vmap (.IntegerLiteral 1)
      (.IntegerLiteral 2) c4_fin (by decide)
      (by simp [lower_expr, push_inst, push_block, c4_fin] :
        lower_expr c4_bmap c4_vmap
            (.While (.IntegerLiteral 1) (.IntegerLiteral 2)) c4_fin 0 0 =
          some (⟨0, 1, [⟨[.Jump 1]⟩,
            ⟨[.Literal 0 (.Integer 1), .Branch 0 2 3]⟩,
            ⟨[.Literal 0 (.Integer 2), .Jump 1]⟩, ⟨[]⟩]⟩, 3))⟩

/-! ### C7: no builtin signature injection before type checking -/

/-- C7 counterexample: type-checking the resolved program `puts;` (a bare
reference to the builtin, resolved to the non-dummy id 1) against an empty
type context panics on the missing variable type — no builtin signature was
injected before checking the body. -/
theorem c7_builtin_reference_panics :
    AstTypecheck.typecheck c7_program ⟨[]⟩ = .error .panicked := rfl

/-- C7 amended: `typecheck` starts from a `TypeChecker` whose variable-type
map is empty and injects nothing for builtins, so a program whose body is a
bare reference to any resolved (non-dummy) id — in particular a builtin such
as `puts` — panics on the missing variable type, for every type context. -/
theorem c7_no_builtin_injection (name : String) (id : Id)
    (ctx : Ntype.TyCtx) (h : id.is_dummy = false) :
    AstTypecheck.typecheck [.Expr (.Var ⟨name, id⟩) false] ctx =
      .error .panicked := by
  have hident : AstTypecheck.typecheck_ident (AstTypecheck.TypeChecker.new ctx)
      ⟨name, id⟩ = .error .panicked := by
    simp [AstTypecheck.typecheck_ident, h, AstTypecheck.lookup_var,
      AstTypecheck.TypeChecker.new]
  unfold AstTypecheck.typecheck AstTypecheck.typecheck_program
    AstTypecheck.typecheck_stmts AstTypecheck.typecheck_stmt
    AstTypecheck.typecheck_expr
  rw [hident]
  rfl

theorem c7_no_builtin_injection_witness :
    (Id.mk 1).is_dummy = false ∧
    AstTypecheck.typecheck [.Expr (.Var ⟨"puts", ⟨1⟩⟩) false] ⟨[]⟩ =
      .error .panicked :=
  ⟨by decide, c7_no_builtin_injection "puts" ⟨1⟩ ⟨[]⟩ (by decide)⟩

end Umo
